import Mathlib

/-!
Verification development for the `cf-gh-server` worker (`src/index.ts`).

The TypeScript source is shallowly embedded here:

* `parseSuggestionsFromComment` — a faithful model of the JavaScript global
  regex `/\x60\x60\x60diff\n--- a\/(.+?)\n\+\+\+ b\/.+?\n([\s\S]+?)\x60\x60\x60/g`
  together with the `.trim()` / truthiness filtering of the source.
* `verifySignature` — the HMAC webhook-signature check, with the external
  HMAC-SHA-256 primitive as a parameter and JavaScript `split`, `match(/../g)`,
  `parseInt(h, 16)` and `Uint8Array` coercion modelled faithfully.
* `applySuggestions` / `waitForPullRequestReady` / `mergePullRequest` /
  `ensureConfigFile` — modelled as pure functions over a `GhWorld` record of
  GitHub-API response functions; each run produces the list of API calls it
  performs, so batch-abort / idempotence / creation claims are statements
  about that call trace.  File contents are modelled post-base64-decoding.
-/

/-- The character classes of JavaScript regex `.` (anything but a line
terminator) keyed by code point: LF, CR, LS, PS. -/
def lineTerm (c : Char) : Bool :=
  c.toNat = 10 || c.toNat = 13 || c.toNat = 8232 || c.toNat = 8233

/-- JavaScript `WhiteSpace ∪ LineTerminator`, the set removed by
`String.prototype.trim` and skipped by `parseInt`. -/
def jsWhitespace (c : Char) : Bool :=
  c.toNat = 9 || c.toNat = 10 || c.toNat = 11 || c.toNat = 12 || c.toNat = 13 ||
  c.toNat = 32 || c.toNat = 160 || c.toNat = 5760 ||
  (8192 ≤ c.toNat && c.toNat ≤ 8202) || c.toNat = 8232 || c.toNat = 8233 ||
  c.toNat = 8239 || c.toNat = 8287 || c.toNat = 12288 || c.toNat = 65279

/-- JavaScript `String.prototype.trim` on a character list. -/
def jsTrimList (s : List Char) : List Char :=
  ((s.dropWhile jsWhitespace).reverse.dropWhile jsWhitespace).reverse

/-- The backtick character (code point 96). -/
def btk : Char := '\x60'

/-- One parsed suggestion: `{ filePath, diff }` from `src/types.ts`. -/
structure CodeSuggestion where
  filePath : String
  diff : String
deriving DecidableEq, Repr

/-- The literal part of the regex before the first capture group:
three backticks, `diff`, newline, `--- a/`. -/
def opener : List Char :=
  [btk, btk, btk, 'd', 'i', 'f', 'f', '\n', '-', '-', '-', ' ', 'a', '/']

/-- The literal `+++ b/` between the two header lines. -/
def hdr2 : List Char := ['+', '+', '+', ' ', 'b', '/']

/-- A code fence: three backticks. -/
def fence3 : List Char := [btk, btk, btk]

/-- Three backticks followed by `diff`: the tag whose occurrence starts a
match of the suggestion regex. -/
def fenceDiff : List Char := [btk, btk, btk, 'd', 'i', 'f', 'f']

/-- Drop an expected literal from the front of a list; `none` if it is not
there. -/
def stripPfx : List Char → List Char → Option (List Char)
  | [], s => some s
  | _, [] => none
  | p :: ps, c :: cs => if c = p then stripPfx ps cs else none

/-- Predicate `notLT c` holds for characters the regex `.` can match. -/
def notLT (c : Char) : Bool := !lineTerm c

/-- Index of the first occurrence of a code fence in `s` (offset ≥ 0). -/
def fenceIdx : List Char → Option Nat
  | [] => none
  | c :: cs =>
    if (stripPfx fence3 (c :: cs)).isSome then some 0
    else (fenceIdx cs).map (· + 1)

/-- Index of the first occurrence of a code fence at offset ≥ 1: the lazy
`[\s\S]+?` must contribute at least one character before the closing fence. -/
def fenceFrom1 : List Char → Option Nat
  | [] => none
  | _ :: cs => (fenceIdx cs).map (· + 1)

/-- Attempt to match the suggestion regex at the head of `s`.  On success
returns the two capture groups (file path, diff body) and the input remaining
after the closing fence.  Group 1 is the lazy non-line-terminator run after
`--- a/` (forced to end at the first line terminator, which must be `\n`),
likewise the uncaptured path after `+++ b/`; group 2 is the shortest
non-empty run of arbitrary characters before a closing fence. -/
def matchAt (s : List Char) : Option (List Char × List Char × List Char) :=
  match stripPfx opener s with
  | none => none
  | some s1 =>
    if (s1.takeWhile notLT).isEmpty then none
    else
      match s1.drop (s1.takeWhile notLT).length with
      | '\n' :: s2 =>
        match stripPfx hdr2 s2 with
        | none => none
        | some s3 =>
          if (s3.takeWhile notLT).isEmpty then none
          else
            match s3.drop (s3.takeWhile notLT).length with
            | '\n' :: s4 =>
              match fenceFrom1 s4 with
              | none => none
              | some j => some (s1.takeWhile notLT, s4.take j, s4.drop (j + 3))
            | _ => none
      | _ => none

/-- Fuelled scanner: repeatedly find the leftmost regex match (advancing one
character on failure, as the regex engine does, and past the consumed match on
success, as `lastIndex` does).  Fuel `s.length` always suffices. -/
def scanF : Nat → List Char → List (List Char × List Char)
  | 0, _ => []
  | _ + 1, [] => []
  | f + 1, c :: cs =>
    match matchAt (c :: cs) with
    | some (g1, g2, rest) => (g1, g2) :: scanF f rest
    | none => scanF f cs

/-- All matches of the suggestion regex over `s`, in document order. -/
def scan (s : List Char) : List (List Char × List Char) := scanF s.length s

/-- Function `parseSuggestionsFromComment` from `src/index.ts`: collect every regex
match, trim both capture groups, and keep a suggestion only when both trimmed
strings are truthy (non-empty). -/
def parseSuggestionsFromComment (commentBody : String) : List CodeSuggestion :=
  (scan commentBody.data).filterMap fun g =>
    if jsTrimList g.1 ≠ [] ∧ jsTrimList g.2 ≠ []
    then some ⟨⟨jsTrimList g.1⟩, ⟨jsTrimList g.2⟩⟩ else none

example : parseSuggestionsFromComment
    "\x60\x60\x60diff\n--- a/src/index.js\n+++ b/src/index.js\n- console.log\n+ console.warn\n\x60\x60\x60"
    = [⟨"src/index.js", "- console.log\n+ console.warn"⟩] := by decide

example : parseSuggestionsFromComment "no blocks here" = [] := by decide

example : parseSuggestionsFromComment
    "\x60\x60\x60diff\n--- a/src/index.js\n+++ b/src/index.js\n\x60\x60\x60" = [] := by
  decide

/-- Split a character list at every occurrence of `sep`, JavaScript
`String.prototype.split` style (`n` separators yield `n + 1` pieces). -/
def splitOnChar (sep : Char) : List Char → List (List Char)
  | [] => [[]]
  | c :: cs =>
    if c = sep then [] :: splitOnChar sep cs
    else
      match splitOnChar sep cs with
      | h :: t => (c :: h) :: t
      | [] => [[c]]

/-- A line is blank when all of its characters are whitespace. -/
def isBlankLine (l : List Char) : Bool := l.all jsWhitespace

/-- Rejoin lines with `\n`. -/
def joinLines : List (List Char) → List Char
  | [] => []
  | [l] => l
  | l :: rest => l ++ '\n' :: joinLines rest

/-- Modelled from the spec: "the `diffBody` is every remaining line of the
block trimmed of leading/trailing blank lines" — remove only the outer blank
lines of a string, preserving interior content and intra-line leading or
trailing whitespace of the surviving lines.  This comparator is what claim C4
says the extracted diff equals; the source instead applies a full
`String.prototype.trim`. -/
def trimOuterBlankLines (s : String) : String :=
  let ls := splitOnChar '\n' s.data
  ⟨joinLines (((ls.dropWhile isBlankLine).reverse.dropWhile isBlankLine).reverse)⟩

/-- One fenced diff-tagged block of a comment together with the free text
that follows it: header path, second-header path, body, trailing filler. -/
structure DiffBlockSeg where
  path : String
  path2 : String
  body : String
  after : String

/-- Render one diff-tagged block (opening fence through closing fence)
followed by its trailing filler. -/
def renderSeg (x : DiffBlockSeg) : String :=
  "\x60\x60\x60diff\n--- a/" ++ x.path ++ "\n+++ b/" ++ x.path2 ++ "\n" ++
    x.body ++ "\x60\x60\x60" ++ x.after

/-- Render a list of blocks-with-trailing-filler. -/
def renderSegs : List DiffBlockSeg → String
  | [] => ""
  | x :: rest => renderSeg x ++ renderSegs rest

/-- A comment interleaving filler text with fenced diff-tagged blocks. -/
def renderComment (f0 : String) (segs : List DiffBlockSeg) : String :=
  f0 ++ renderSegs segs

/-- Dropping a literal that is there succeeds and leaves the remainder. -/
theorem stripPfx_append (p t : List Char) : stripPfx p (p ++ t) = some t := by
  induction p with
  | nil => simp [stripPfx]
  | cons a as ih => simp [stripPfx, ih]

/-- Dropping via `stripPfx` succeeds exactly on inputs that start with the literal. -/
theorem stripPfx_eq_some {p s t : List Char} : stripPfx p s = some t ↔ s = p ++ t := by
  constructor
  · intro h
    induction p generalizing s with
    | nil => simpa [stripPfx] using h
    | cons a as ih =>
      match s with
      | [] => simp [stripPfx] at h
      | b :: bs =>
        simp only [stripPfx] at h
        split at h
        · next heq => simpa [heq] using congrArg (b :: ·) (ih h)
        · exact absurd h (by simp)
  · rintro rfl; exact stripPfx_append p t

/-- Boolean search for an occurrence of `pat` inside `s`. -/
def containsSeq (pat : List Char) : List Char → Bool
  | [] => (stripPfx pat []).isSome
  | c :: cs => (stripPfx pat (c :: cs)).isSome || containsSeq pat cs

/-- Search `containsSeq` finds exactly the lists with an occurrence of `pat`. -/
theorem containsSeq_iff (pat s : List Char) :
    containsSeq pat s = true ↔ ∃ u v, s = u ++ pat ++ v := by
  induction s with
  | nil =>
    simp only [containsSeq, Option.isSome_iff_exists]
    constructor
    · rintro ⟨t, ht⟩
      exact ⟨[], t, by simpa using (stripPfx_eq_some.mp ht)⟩
    · rintro ⟨u, v, huv⟩
      have hu : u = [] := by
        cases u with
        | nil => rfl
        | cons a as => simp at huv
      subst hu
      exact ⟨v, stripPfx_eq_some.mpr (by simpa using huv)⟩
  | cons c cs ih =>
    simp only [containsSeq, Bool.or_eq_true, Option.isSome_iff_exists, ih]
    constructor
    · rintro (⟨t, ht⟩ | ⟨u, v, huv⟩)
      · exact ⟨[], t, by simpa using stripPfx_eq_some.mp ht⟩
      · exact ⟨c :: u, v, by simp [huv]⟩
    · rintro ⟨u, v, huv⟩
      cases u with
      | nil => exact .inl ⟨v, stripPfx_eq_some.mpr (by simpa using huv)⟩
      | cons a as =>
        right
        refine ⟨as, v, ?_⟩
        have := congrArg List.tail huv
        simpa using this

/-- Property stating that `fenceDiff` occurs somewhere inside `s`: the property a stretch of filler
text must avoid so that no suggestion-regex match can start inside it. -/
def HasFenceDiff (s : List Char) : Prop := ∃ u v, s = u ++ fenceDiff ++ v

instance (s : List Char) : Decidable (HasFenceDiff s) :=
  decidable_of_iff _ (containsSeq_iff fenceDiff s)

/-- Hex value of a character, by code point (digits, `a`–`f`, `A`–`F`). -/
def hexVal (c : Char) : Option Nat :=
  if 48 ≤ c.toNat ∧ c.toNat ≤ 57 then some (c.toNat - 48)
  else if 97 ≤ c.toNat ∧ c.toNat ≤ 102 then some (c.toNat - 87)
  else if 65 ≤ c.toNat ∧ c.toNat ≤ 70 then some (c.toNat - 55)
  else none

/-- Strip an optional `0x` / `0X` tag, as `parseInt` does for radix 16. -/
def stripHexTag : List Char → List Char
  | c :: d :: u => if c = '0' ∧ (d = 'x' ∨ d = 'X') then u else c :: d :: u
  | u => u

/-- Value of the longest hex-digit run at the front of `l`; `none` (NaN)
when there is no digit. -/
def takeHexVal (l : List Char) : Option Nat :=
  if (l.takeWhile (fun c => (hexVal c).isSome)).isEmpty then none
  else some ((l.takeWhile (fun c => (hexVal c).isSome)).foldl
    (fun a c => a * 16 + ((hexVal c).getD 0)) 0)

/-- JavaScript `parseInt(s, 16)`: skip whitespace, read an optional sign,
strip an optional `0x` tag, then parse the longest hex prefix; `none` is NaN. -/
def jsParseIntHex (s : List Char) : Option Int :=
  if (s.dropWhile jsWhitespace).head? = some '-' then
    (takeHexVal (stripHexTag ((s.dropWhile jsWhitespace).drop 1))).map (fun n => -(n : Int))
  else if (s.dropWhile jsWhitespace).head? = some '+' then
    (takeHexVal (stripHexTag ((s.dropWhile jsWhitespace).drop 1))).map (fun n => (n : Int))
  else (takeHexVal (stripHexTag (s.dropWhile jsWhitespace))).map (fun n => (n : Int))

/-- The `Uint8Array` element coercion: NaN becomes 0, other integers are taken
modulo 256. -/
def toByte (v : Option Int) : Nat :=
  match v with
  | none => 0
  | some n => (n % 256).toNat

/-- All matches of `/../g`: successive pairs of non-line-terminator
characters, the engine advancing by one on failure and by two on a match.
An empty result models `match` returning `null`. -/
def hexPairs : List Char → List (List Char)
  | c1 :: c2 :: rest =>
    if notLT c1 && notLT c2 then [c1, c2] :: hexPairs rest
    else hexPairs (c2 :: rest)
  | _ => []

/-- Decode the chunked digest characters the way the source builds its
`Uint8Array`: `parseInt(h, 16)` on each pair, coerced to a byte. -/
def decodePairs (pairs : List (List Char)) : List Nat :=
  pairs.map (fun h => toByte (jsParseIntHex h))

/-- The part of the signature after the first `=`, if any (`split('=')[1]`). -/
def sigHexPart (signature : String) : Option (List Char) :=
  (splitOnChar '=' signature.data)[1]?

/-- Function `verifySignature` from `src/index.ts`.  The external HMAC-SHA-256
primitive is the parameter `hmac` (secret and payload to tag bytes);
`crypto.subtle.verify` is equality of the decoded signature bytes with that
tag.  `Except.error ()` models the thrown `TypeError`s the source can raise:
`split('=')[1]` being `undefined`, or `match(/../g)` returning `null`. -/
def verifySignature (hmac : String → String → List Nat)
    (secret signature payload : String) : Except Unit Bool :=
  match sigHexPart signature with
  | none => .error ()
  | some sigHex =>
    if hexPairs sigHex = [] then .error ()
    else .ok (decodePairs (hexPairs sigHex) == hmac secret payload)

/-- Strict hex decoding of an even-length digit string, two digits per byte —
the reading the spec ascribes to a well-formed signature. -/
def strictHexBytes : List Char → List Nat
  | c1 :: c2 :: rest => (16 * ((hexVal c1).getD 0) + (hexVal c2).getD 0) :: strictHexBytes rest
  | _ => []

example : verifySignature (fun _ _ => [1, 2]) "s" "sha256=0102" "p" = .ok true := rfl
example : verifySignature (fun _ _ => [1, 2]) "s" "sha256=0103" "p" = .ok false := rfl
example : verifySignature (fun _ _ => [1, 2]) "s" "deadbeef" "p" = .error () := rfl
example : verifySignature (fun _ _ => [1, 2]) "s" "sha256=" "p" = .error () := rfl
example : verifySignature (fun _ _ => [241]) "s" "sha256=-f" "p" = .ok true := rfl
example : verifySignature (fun _ _ => [1]) "s" "sha256=zz" "p" = .ok false := rfl
example : verifySignature (fun _ _ => [1, 2]) "s" "sha256=x" "p" = .error () := rfl

/-- Per-repository configuration (`RepoConfig` from `src/types.ts`). -/
structure RepoConfig where
  automatic_pr_processing : Bool
  ai_model : Option String := none
  custom_prompts : Option (List (String × String)) := none
  ignored_files : Option (List String) := none
  bot_username : Option String := none
  primary_branch : Option String := none
deriving DecidableEq, Repr

/-- Result of `octokit.rest.repos.getContent` for one path at one ref:
a thrown error, a response carrying no `content` field (directory, submodule,
symlink), or a file whose decoded content is `content`. -/
inductive ContentResult where
  | error
  | nonFile
  | file (content : String)
deriving DecidableEq, Repr

/-- The fields of a fetched pull request that the pipeline reads. -/
structure PrSnapshot where
  headSha : String
  mergeable : Option Bool
  merged : Bool
  baseRef : String
deriving DecidableEq, Repr

/-- The snapshot of the pull request `applySuggestions` receives: its head
ref/sha as read at the start of suggestion processing, and its number. -/
structure PrInfo where
  number : Nat
  headRef : String
  headSha : String
deriving DecidableEq, Repr

/-- Response of `octokit.rest.pulls.merge`. -/
structure MergeApiResult where
  merged : Bool
deriving DecidableEq, Repr

/-- One outbound GitHub-API call the pipeline performs, as recorded in a run
trace. -/
inductive GitCall where
  | getContent (path : String)
  | getCommit (sha : String)
  | createBlob (content : String)
  | createTree (baseTree : String)
  | createCommit (tree : String) (parents : List String)
  | updateRef (ref : String) (sha : String)
  | prFetch
  | sleep (ms : Nat)
  | mergeGet
  | mergeCall
  | integrate (base head : String)
deriving DecidableEq, Repr

/-- The external collaborators of one `applySuggestions` run: every GitHub
API endpoint it can hit, plus the patch-application primitive of the `diff`
package (a black box per the spec, hence a parameter).  Responses are fixed
per run; the wait-loop fetch is indexed by attempt number so the pull
request's state may change while polling. -/
structure GhWorld where
  getContent : String → ContentResult
  applyPatch : String → String → Option String
  getCommitTree : String → Except Unit String
  createBlob : String → Except Unit String
  createTree : String → List (String × String) → Except Unit String
  createCommit : String → List String → Except Unit String
  updateRef : String → String → Except Unit Unit
  waitFetch : Nat → Except Unit PrSnapshot
  mergeFetch : Except Unit PrSnapshot
  mergeApi : Except Unit MergeApiResult
  config : RepoConfig

/-- Extract the success value of an `Except`. -/
def exOk : Except Unit α → Option α
  | .ok a => some a
  | .error _ => none

/-- The full unified diff the source synthesises before calling `applyPatch`:
`--- a/<path>\n+++ b/<path>\n<diff>`. -/
def mkPatch (filePath diffBody : String) : String :=
  "--- a/" ++ filePath ++ "\n+++ b/" ++ filePath ++ "\n" ++ diffBody

/-- JavaScript `Map.set` on an association list: overwrite in place if the key exists,
else append. -/
def setEntry (cs : List (String × String)) (k v : String) : List (String × String) :=
  if cs.any (fun e => e.1 = k) then
    cs.map (fun e => if e.1 = k then (k, v) else e)
  else cs ++ [(k, v)]

/-- One iteration of the suggestion loop of `applySuggestions`
(source lines 155–192) on the accumulated change set: `none` models the early
`return`s — a thrown content fetch, or `applyPatch` returning `false`; a
non-file content response leaves the change set unchanged (that edit is
skipped); a successful patch records the new content under the file path. -/
def suggStep (w : GhWorld) (s : CodeSuggestion) (cs : List (String × String)) :
    Option (List (String × String)) :=
  match w.getContent s.filePath with
  | .error => none
  | .nonFile => some cs
  | .file orig =>
    match w.applyPatch orig (mkPatch s.filePath s.diff) with
    | none => none
    | some nc => some (setEntry cs s.filePath nc)

/-- The suggestion loop of `applySuggestions`: iterate `suggStep`, recording
one `getContent` call per suggestion reached, stopping the whole batch on an
aborting step. -/
def buildChangeSetAux (w : GhWorld) : List CodeSuggestion → List (String × String) →
    List GitCall × Option (List (String × String))
  | [], cs => ([], some cs)
  | s :: rest, cs =>
    match suggStep w s cs with
    | none => ([.getContent s.filePath], none)
    | some cs' =>
      (.getContent s.filePath :: (buildChangeSetAux w rest cs').1,
       (buildChangeSetAux w rest cs').2)

/-- Create one blob per change-set entry, collecting `(path, blobSha)`;
`none` when any creation fails (the `Promise.all` rejects). -/
def seqBlobs (w : GhWorld) : List (String × String) → Option (List (String × String))
  | [] => some []
  | e :: rest =>
    match exOk (w.createBlob e.2) with
    | none => none
    | some sha => (seqBlobs w rest).map (fun l => (e.1, sha) :: l)

/-- The readiness test of the poller: the fetch succeeded, the head SHA is
the expected one, and `mergeable` is no longer `null`. -/
def prIsReady (expected : String) (r : Except Unit PrSnapshot) : Bool :=
  match r with
  | .ok pr => pr.headSha == expected && pr.mergeable.isSome
  | .error _ => false

/-- How one `waitForPullRequestReady` run ended. -/
inductive WaitOutcome where
  | ready (attempt : Nat)
  | exhausted
deriving DecidableEq, Repr

/-- The polling loop of `waitForPullRequestReady` (source lines 272–296):
`attempt` is the current attempt number, the second argument the number of
attempts still allowed.  Each iteration fetches; a ready snapshot returns
immediately, otherwise the loop sleeps 5000 ms — except after the final
attempt — and retries.  A fetch error is caught and treated as not ready. -/
def waitAux (fetch : Nat → Except Unit PrSnapshot) (expected : String) :
    Nat → Nat → WaitOutcome × List GitCall
  | _, 0 => (.exhausted, [])
  | attempt, r + 1 =>
    if prIsReady expected (fetch attempt) then (.ready attempt, [.prFetch])
    else if r = 0 then (.exhausted, [.prFetch])
    else
      let w := waitAux fetch expected (attempt + 1) r
      (w.1, .prFetch :: .sleep 5000 :: w.2)

/-- Function `waitForPullRequestReady`: at most 12 attempts, starting at attempt 1. -/
def waitForPullRequestReady (fetch : Nat → Except Unit PrSnapshot)
    (expected : String) : WaitOutcome × List GitCall :=
  waitAux fetch expected 1 12

/-- The outcome labels the spec assigns to `mergePullRequest`'s return
paths (§4.5), plus `errored` for a caught platform-call failure. -/
inductive MergeOutcome where
  | alreadyMerged
  | merged
  | unmergeable
  | mergeFailed
  | errored
deriving DecidableEq, Repr

/-- Function `mergePullRequest` (source lines 301–364): re-fetch the pull request;
return at once when it is already merged; refuse when mergeability is not
strictly `true`; otherwise squash-merge, and on success integrate the target
branch into the primary branch when they differ (an integration failure is
caught and changes nothing). -/
def mergePullRequest (w : GhWorld) : MergeOutcome × List GitCall :=
  match exOk w.mergeFetch with
  | none => (.errored, [.mergeGet])
  | some pr =>
    if pr.merged then (.alreadyMerged, [.mergeGet])
    else if pr.mergeable ≠ some true then (.unmergeable, [.mergeGet])
    else
      match exOk w.mergeApi with
      | none => (.errored, [.mergeGet, .mergeCall])
      | some res =>
        if res.merged = false then (.mergeFailed, [.mergeGet, .mergeCall])
        else
          let primaryBranch := w.config.primary_branch.getD "main"
          if pr.baseRef ≠ primaryBranch then
            (.merged, [.mergeGet, .mergeCall, .integrate primaryBranch pr.baseRef])
          else (.merged, [.mergeGet, .mergeCall])

/-- The commit block of `applySuggestions` (source lines 200–264), entered
only with a non-empty change set: read the head commit's tree, create one
blob per file, a tree, a commit whose sole parent is the head SHA read at the
start, update the branch ref, then poll for readiness and attempt the merge.
Any failed step is caught and stops the run. -/
def commitPhase (w : GhWorld) (pr : PrInfo) (cs : List (String × String)) : List GitCall :=
  .getCommit pr.headSha ::
  match exOk (w.getCommitTree pr.headSha) with
  | none => []
  | some baseTree =>
    cs.map (fun e => .createBlob e.2) ++
    match seqBlobs w cs with
    | none => []
    | some _ =>
      .createTree baseTree ::
      match exOk (w.createTree baseTree cs) with
      | none => []
      | some treeSha =>
        .createCommit treeSha [pr.headSha] ::
        match exOk (w.createCommit treeSha [pr.headSha]) with
        | none => []
        | some commitSha =>
          .updateRef ("heads/" ++ pr.headRef) commitSha ::
          match exOk (w.updateRef ("heads/" ++ pr.headRef) commitSha) with
          | none => []
          | some _ =>
            (waitForPullRequestReady w.waitFetch commitSha).2 ++
            (mergePullRequest w).2

/-- Function `applySuggestions` (source lines 146–265) as the trace of API calls one
run performs: run the suggestion loop; on an aborted batch or an empty change
set, stop; otherwise run the commit block. -/
def applySuggestions (w : GhWorld) (pr : PrInfo) (suggestions : List CodeSuggestion) :
    List GitCall :=
  (buildChangeSetAux w suggestions []).1 ++
  match (buildChangeSetAux w suggestions []).2 with
  | none => []
  | some cs => if cs.isEmpty then [] else commitPhase w pr cs

/-- An API error as the config-reconciliation code sees it: an optional
HTTP status. -/
structure GhError where
  status : Option Nat
deriving DecidableEq, Repr

/-- Calls `ensureConfigFile` can make. -/
inductive EnsureCall where
  | getContent (path : String)
  | createFile (path : String) (content : RepoConfig)
deriving DecidableEq, Repr

/-- The fixed path of the per-repository policy file. -/
def configPath : String := ".github/worker-settings.json"

/-- The baseline policy the reconciliation loop writes:
`automatic_pr_processing: false` and nothing else. -/
def defaultConfig : RepoConfig := { automatic_pr_processing := false }

/-- Function `ensureConfigFile` (source lines 476–523): read the policy file; on
success do nothing; on a non-404 error log and return; on a 404 create the
file with the serialised `defaultConfig` (a creation failure is caught). -/
def ensureConfigFile (readConfig : Except GhError Unit) : List EnsureCall :=
  match readConfig with
  | .ok _ => [.getContent configPath]
  | .error e =>
    if e.status ≠ some 404 then [.getContent configPath]
    else [.getContent configPath, .createFile configPath defaultConfig]

/-- Where `fenceIdx` points, a fence really starts. -/
theorem fenceIdx_fence {s : List Char} {i : Nat} (h : fenceIdx s = some i) :
    ∃ t, s.drop i = fence3 ++ t := by
  induction s generalizing i with
  | nil => simp [fenceIdx] at h
  | cons c cs ih =>
    rw [fenceIdx] at h
    split at h
    · next hs =>
      rw [Option.isSome_iff_exists] at hs
      obtain ⟨t, ht⟩ := hs
      obtain rfl : i = 0 := by simpa using h.symm
      exact ⟨t, by simpa using stripPfx_eq_some.mp ht⟩
    · next hs =>
      rw [Option.map_eq_some'] at h
      obtain ⟨i', hi', rfl⟩ := h
      obtain ⟨t, ht⟩ := ih hi'
      exact ⟨t, by simpa using ht⟩

/-- Where `fenceFrom1` points, a fence really starts, at offset at least 1. -/
theorem fenceFrom1_fence {s : List Char} {j : Nat} (h : fenceFrom1 s = some j) :
    1 ≤ j ∧ ∃ t, s.drop j = fence3 ++ t := by
  match s with
  | [] => simp [fenceFrom1] at h
  | c :: cs =>
    rw [fenceFrom1, Option.map_eq_some'] at h
    obtain ⟨i, hi, rfl⟩ := h
    obtain ⟨t, ht⟩ := fenceIdx_fence hi
    exact ⟨by omega, t, by simpa using ht⟩

/-- A successful match consumes at least one character (in fact many). -/
theorem matchAt_length {s g1 g2 rest : List Char}
    (h : matchAt s = some (g1, g2, rest)) : rest.length < s.length := by
  unfold matchAt at h
  split at h
  · exact absurd h (by simp)
  · next s1 hs1 =>
    have h1 : s.length = opener.length + s1.length := by
      rw [stripPfx_eq_some.mp hs1]; simp
    split at h
    · exact absurd h (by simp)
    · split at h
      · next s2 hd2 =>
        have h2 : s2.length < s1.length := by
          have := congrArg List.length hd2
          simp at this
          omega
        split at h
        · exact absurd h (by simp)
        · next s3 hs3 =>
          have h3 : s2.length = hdr2.length + s3.length := by
            rw [stripPfx_eq_some.mp hs3]; simp
          split at h
          · exact absurd h (by simp)
          · split at h
            · next s4 hd4 =>
              have h4 : s4.length < s3.length := by
                have := congrArg List.length hd4
                simp at this
                omega
              split at h
              · exact absurd h (by simp)
              · next j hj =>
                obtain ⟨hj1, t, ht⟩ := fenceFrom1_fence hj
                obtain ⟨rfl, rfl, rfl⟩ : s1.takeWhile notLT = g1 ∧ s4.take j = g2 ∧
                    s4.drop (j + 3) = rest := by
                  have := h
                  simp at this
                  exact ⟨this.1, this.2.1, this.2.2⟩
                have h5 : (s4.drop (j + 3)).length ≤ s4.length := by
                  simp
                simp [opener] at h1
                simp [hdr2] at h3
                omega
            · exact absurd h (by simp)
      · exact absurd h (by simp)

/-- The scanner ignores how much fuel it has, as long as it has enough. -/
theorem scanF_fuel (f : Nat) : ∀ s : List Char, s.length ≤ f → scanF f s = scanF s.length s := by
  induction f using Nat.strong_induction_on with
  | _ f ih =>
    intro s hs
    match f, s with
    | 0, s =>
      have : s = [] := List.length_eq_zero.mp (by omega)
      subst this
      rfl
    | f + 1, [] => rfl
    | f + 1, c :: cs =>
      have hcs : cs.length ≤ f := by simpa using hs
      cases hm : matchAt (c :: cs) with
      | some g =>
        obtain ⟨g1, g2, rest⟩ := g
        have hr : rest.length ≤ cs.length := by
          have := matchAt_length hm
          simp at this
          omega
        have e1 : scanF (f + 1) (c :: cs) = (g1, g2) :: scanF f rest := by
          rw [scanF, hm]
        have e2 : scanF (c :: cs).length (c :: cs) = (g1, g2) :: scanF cs.length rest := by
          rw [List.length_cons, scanF, hm]
        rw [e1, e2, ih f (by omega) rest (by omega), ih cs.length (by omega) rest (by omega)]
      | none =>
        have e1 : scanF (f + 1) (c :: cs) = scanF f cs := by rw [scanF, hm]
        have e2 : scanF (c :: cs).length (c :: cs) = scanF cs.length cs := by
          rw [List.length_cons, scanF, hm]
        rw [e1, e2, ih f (by omega) cs (by omega)]

/-- Scanner step on a match: emit the groups and continue after the match. -/
theorem scan_cons_some {c : Char} {cs g1 g2 rest : List Char}
    (h : matchAt (c :: cs) = some (g1, g2, rest)) :
    scan (c :: cs) = (g1, g2) :: scan rest := by
  have hr : rest.length ≤ cs.length := by
    have := matchAt_length h
    simp at this
    omega
  have e1 : scanF (c :: cs).length (c :: cs) = (g1, g2) :: scanF cs.length rest := by
    rw [List.length_cons, scanF, h]
  rw [scan, e1, scanF_fuel cs.length rest hr]
  rfl

/-- Scanner step on a failure: advance one character. -/
theorem scan_cons_none {c : Char} {cs : List Char} (h : matchAt (c :: cs) = none) :
    scan (c :: cs) = scan cs := by
  have e1 : scanF (c :: cs).length (c :: cs) = scanF cs.length cs := by
    rw [List.length_cons, scanF, h]
  rw [scan, e1]
  rfl

/-- A match can only start where the opener literal is present. -/
theorem matchAt_none_of_no_opener {s : List Char} (h : ∀ t, s ≠ opener ++ t) :
    matchAt s = none := by
  unfold matchAt
  cases hs : stripPfx opener s with
  | none => rfl
  | some s1 => exact absurd (stripPfx_eq_some.mp hs) (h s1)

/-- Taking `takeWhile` over a satisfying run that stops at a newline. -/
theorem takeWhile_run {p : List Char} (hp : ∀ c ∈ p, notLT c = true) (r : List Char) :
    (p ++ '\n' :: r).takeWhile notLT = p := by
  induction p with
  | nil =>
    have : notLT '\n' = false := by decide
    simp [List.takeWhile_cons, this]
  | cons c cs ih =>
    have h1 := hp c (by simp)
    have h2 := ih (fun d hd => hp d (by simp [hd]))
    simp [List.takeWhile_cons, h1, h2]

/-- The first fence in backtick-free text followed by a fence sits exactly at
the junction. -/
theorem fenceIdx_append {x : List Char} (r : List Char) (hx : ∀ c ∈ x, c ≠ btk) :
    fenceIdx (x ++ fence3 ++ r) = some x.length := by
  induction x with
  | nil =>
    simp only [List.nil_append, List.length_nil]
    have hs : stripPfx fence3 (fence3 ++ r) = some r := stripPfx_append fence3 r
    rw [show fence3 ++ r = btk :: btk :: btk :: r from rfl] at hs ⊢
    rw [fenceIdx]
    simp [hs]
  | cons c cs ih =>
    have hcb : c ≠ btk := hx c (by simp)
    have hc : stripPfx fence3 (c :: (cs ++ fence3 ++ r)) = none := by
      simp [fence3, stripPfx, hcb]
    have hform : (c :: cs) ++ fence3 ++ r = c :: (cs ++ fence3 ++ r) := by simp
    rw [hform, fenceIdx, hc]
    simp only [Option.isSome_none, Bool.false_eq_true, if_false,
      ih (fun d hd => hx d (by simp [hd])), Option.map_some', List.length_cons]

/-- A well-formed block matches exactly: the match at the opener returns the
two groups of the block and the text after its closing fence. -/
theorem matchAt_block {p q b : List Char} (r : List Char)
    (hp : p.isEmpty = false) (hpl : ∀ c ∈ p, notLT c = true)
    (hq : q.isEmpty = false) (hql : ∀ c ∈ q, notLT c = true)
    (hb : b.isEmpty = false) (hbt : ∀ c ∈ b, c ≠ btk) :
    matchAt (opener ++ (p ++ '\n' :: (hdr2 ++ (q ++ '\n' :: (b ++ fence3 ++ r)))))
      = some (p, b, r) := by
  have hfence : fenceFrom1 (b ++ fence3 ++ r) = some b.length := by
    match b, hb with
    | c :: cs, _ =>
      have hform : (c :: cs) ++ fence3 ++ r = c :: (cs ++ fence3 ++ r) := by simp
      rw [hform, fenceFrom1]
      rw [show cs ++ fence3 ++ r = cs ++ fence3 ++ r from rfl]
      rw [fenceIdx_append r (fun d hd => hbt d (by simp [hd]))]
      simp
  have htake : (b ++ fence3 ++ r).take b.length = b := by
    rw [List.append_assoc, List.take_left]
  have hdrop3 : (b ++ fence3 ++ r).drop (b.length + 3) = r := by
    have h3 : b.length + 3 = (b ++ fence3).length := by simp [fence3]
    rw [h3, List.drop_left]
  simp only [matchAt, stripPfx_append, takeWhile_run hpl, takeWhile_run hql, hp, hq,
    Bool.false_eq_true, if_false, List.drop_left, hfence, htake, hdrop3]

/-- The opener literal cannot begin strictly inside filler that contains no
diff-fence occurrence: the opener has no self-overlap, so an occurrence
straddling the junction between the filler and a following opener is
impossible, and a full occurrence inside the filler would exhibit
`fenceDiff`. -/
theorem junction_no_opener {d t u : List Char} (hd : d ≠ []) (hnf : ¬ HasFenceDiff d)
    (h : d ++ (opener ++ t) = opener ++ u) : False := by
  by_cases hk : 14 ≤ d.length
  · have h14 : d.take 14 = opener := by
      have h1 := congrArg (List.take 14) h
      rw [List.take_append_of_le_length hk] at h1
      rw [List.take_append_of_le_length (by simp [opener])] at h1
      rw [show opener.take 14 = opener from by decide] at h1
      exact h1
    apply hnf
    refine ⟨[], ['\n', '-', '-', '-', ' ', 'a', '/'] ++ d.drop 14, ?_⟩
    conv_lhs => rw [← List.take_append_drop 14 d, h14]
    simp [opener, fenceDiff]
  · have hk1 : 1 ≤ d.length := by
      have := List.length_pos.mpr hd
      omega
    have hb : opener.take (14 - d.length) = opener.drop d.length := by
      have h2 := congrArg (List.drop d.length) h
      rw [List.drop_left] at h2
      rw [List.drop_append_of_le_length (by simp [opener]; omega)] at h2
      have h4 := congrArg (List.take (14 - d.length)) h2
      have hA : (opener ++ t).take (14 - d.length) = opener.take (14 - d.length) :=
        List.take_append_of_le_length (by simp [opener])
      have hB : (opener.drop d.length ++ u).take (14 - d.length)
          = (opener.drop d.length).take (14 - d.length) :=
        List.take_append_of_le_length (by simp [opener])
      have hC : (opener.drop d.length).take (14 - d.length) = opener.drop d.length :=
        List.take_of_length_le (by simp [opener])
      rw [hA, hB, hC] at h4
      exact h4
    set k := d.length with hkdef
    have hk13 : k ≤ 13 := by omega
    interval_cases k <;> exact absurd hb (by decide)

/-- Scanning filler with no diff-fence occurrence followed by an opener
skips the filler entirely. -/
theorem scan_skip {f t : List Char} (hf : ¬ HasFenceDiff f) :
    scan (f ++ (opener ++ t)) = scan (opener ++ t) := by
  induction f with
  | nil => rw [List.nil_append]
  | cons c cs ih =>
    have hm : matchAt (c :: (cs ++ (opener ++ t))) = none := by
      apply matchAt_none_of_no_opener
      intro u hu
      have hd : (c :: cs : List Char) ≠ [] := by simp
      exact junction_no_opener hd hf (by simpa using hu)
    have hform : (c :: cs) ++ (opener ++ t) = c :: (cs ++ (opener ++ t)) := rfl
    rw [hform, scan_cons_none hm]
    refine ih (fun hh => hf ?_)
    obtain ⟨u, v, huv⟩ := hh
    exact ⟨c :: u, v, by simp [huv]⟩

/-- Text with no diff-fence occurrence contains no match at all. -/
theorem scan_no_fence {s : List Char} (hs : ¬ HasFenceDiff s) : scan s = [] := by
  induction s with
  | nil => rfl
  | cons c cs ih =>
    have hm : matchAt (c :: cs) = none := by
      apply matchAt_none_of_no_opener
      intro u hu
      apply hs
      exact ⟨[], ['\n', '-', '-', '-', ' ', 'a', '/'] ++ u, by rw [hu]; simp [opener, fenceDiff]⟩
    rw [scan_cons_none hm]
    refine ih (fun hh => hs ?_)
    obtain ⟨u, v, huv⟩ := hh
    exact ⟨c :: u, v, by simp [huv]⟩

/-- Character-level rendering of a list of diff-tagged blocks, each followed
by its trailing filler. -/
def segList : List (List Char × List Char × List Char × List Char) → List Char
  | [] => []
  | x :: rest =>
    opener ++ (x.1 ++ '\n' :: (hdr2 ++ (x.2.1 ++ '\n' ::
      (x.2.2.1 ++ fence3 ++ (x.2.2.2 ++ segList rest)))))

/-- The scanner on an interleaving of benign filler and well-formed blocks
returns exactly the groups of the blocks, in order. -/
theorem scan_segs (xs : List (List Char × List Char × List Char × List Char)) :
    ∀ f0 : List Char, ¬ HasFenceDiff f0 →
    (∀ x ∈ xs, x.1.isEmpty = false ∧ (∀ c ∈ x.1, notLT c = true) ∧
      x.2.1.isEmpty = false ∧ (∀ c ∈ x.2.1, notLT c = true) ∧
      x.2.2.1.isEmpty = false ∧ (∀ c ∈ x.2.2.1, c ≠ btk) ∧ ¬ HasFenceDiff x.2.2.2) →
    scan (f0 ++ segList xs) = xs.map (fun x => (x.1, x.2.2.1)) := by
  induction xs with
  | nil =>
    intro f0 h0 _
    rw [segList, List.append_nil, List.map_nil]
    exact scan_no_fence h0
  | cons x rest ih =>
    intro f0 h0 hall
    obtain ⟨p, q, b, g⟩ := x
    obtain ⟨hp, hpl, hq, hql, hb, hbt, hg⟩ := hall (p, q, b, g) (by simp)
    rw [segList, scan_skip h0]
    have hm := matchAt_block (g ++ segList rest) hp hpl hq hql hb hbt
    have e : scan (opener ++ (p ++ '\n' :: (hdr2 ++ (q ++ '\n' ::
        (b ++ fence3 ++ (g ++ segList rest))))))
        = (p, b) :: scan (g ++ segList rest) := scan_cons_some hm
    rw [e, ih g hg (fun y hy => hall y (by simp [hy])), List.map_cons]

/-- String append concatenates the underlying character lists. -/
theorem strDataAppend (s t : String) : (s ++ t).data = s.data ++ t.data := by
  cases s
  cases t
  rfl

theorem openerStr : ("\x60\x60\x60diff\n--- a/" : String).data = opener := by decide

theorem hdr2Str : ("\n+++ b/" : String).data = '\n' :: hdr2 := by decide

theorem nlStr : ("\n" : String).data = ['\n'] := by decide

theorem fenceStr : ("\x60\x60\x60" : String).data = fence3 := by decide

/-- A non-nil list is not `isEmpty`. -/
theorem isEmpty_false_of_ne {l : List Char} (h : l ≠ []) : l.isEmpty = false := by
  cases l with
  | nil => exact absurd rfl h
  | cons a as => rfl

/-- The characters of a rendered block list are the `segList` rendering of
the component character lists. -/
theorem renderSegs_data (segs : List DiffBlockSeg) :
    (renderSegs segs).data = segList (segs.map fun x =>
      (x.path.data, x.path2.data, x.body.data, x.after.data)) := by
  induction segs with
  | nil => rfl
  | cons x rest ih =>
    rw [renderSegs, List.map_cons, segList, strDataAppend]
    rw [show renderSeg x = "\x60\x60\x60diff\n--- a/" ++ x.path ++ "\n+++ b/" ++ x.path2 ++
      "\n" ++ x.body ++ "\x60\x60\x60" ++ x.after from rfl]
    simp only [strDataAppend, openerStr, hdr2Str, nlStr, fenceStr, ih]
    simp [List.append_assoc, opener, hdr2, fence3, btk]

/-- Claim C8 (amended): for a comment that interleaves filler free of any
diff-fence tag (non-diff fenced blocks included) with well-formed diff-tagged
blocks whose bodies are non-empty and backtick-free, extraction yields
exactly one edit per block whose trimmed path and trimmed body are non-empty,
in document order, with the filler contributing nothing.  (The original
claim's "a diff-tagged block whose body is empty yields no edit" fails: see
the counterexample, where such a block matches across its own closing fence.) -/
theorem parse_interleaved_blocks (f0 : String) (segs : List DiffBlockSeg)
    (h0 : ¬ HasFenceDiff f0.data)
    (hall : ∀ x ∈ segs,
      x.path.data ≠ [] ∧ (∀ c ∈ x.path.data, lineTerm c = false) ∧
      x.path2.data ≠ [] ∧ (∀ c ∈ x.path2.data, lineTerm c = false) ∧
      x.body.data ≠ [] ∧ (∀ c ∈ x.body.data, c ≠ btk) ∧ ¬ HasFenceDiff x.after.data) :
    parseSuggestionsFromComment (renderComment f0 segs)
      = segs.filterMap (fun x =>
          if jsTrimList x.path.data ≠ [] ∧ jsTrimList x.body.data ≠ []
          then some ⟨⟨jsTrimList x.path.data⟩, ⟨jsTrimList x.body.data⟩⟩ else none) := by
  unfold parseSuggestionsFromComment
  have hdata : (renderComment f0 segs).data = f0.data ++ segList (segs.map fun x =>
      (x.path.data, x.path2.data, x.body.data, x.after.data)) := by
    rw [renderComment, strDataAppend, renderSegs_data]
  rw [hdata]
  rw [scan_segs _ f0.data h0 ?hconds]
  case hconds =>
    intro y hy
    rw [List.mem_map] at hy
    obtain ⟨x, hx, rfl⟩ := hy
    obtain ⟨h1, h2, h3, h4, h5, h6, h7⟩ := hall x hx
    refine ⟨isEmpty_false_of_ne h1, ?_, isEmpty_false_of_ne h3, ?_,
      isEmpty_false_of_ne h5, h6, h7⟩
    · intro c hc
      simp [notLT, h2 c hc]
    · intro c hc
      simp [notLT, h4 c hc]
  rw [List.map_map, List.filterMap_map]
  rfl

/-- Claim C8 counterexample: in
`[diff block with empty body] hello [well-formed diff block for g]`, the
empty-body block does yield an edit — its lazy body group matches across its
own closing fence, swallowing the filler and the second block's opening
fence — so extraction returns that phantom edit instead of the one edit for
`g` that the claim predicts. -/
theorem parse_empty_body_counterexample :
    parseSuggestionsFromComment
      "\x60\x60\x60diff\n--- a/f\n+++ b/f\n\x60\x60\x60\nhello\n\x60\x60\x60diff\n--- a/g\n+++ b/g\nX\n\x60\x60\x60"
      = [⟨"f", "\x60\x60\x60\nhello"⟩]
    ∧ ([(⟨"f", "\x60\x60\x60\nhello"⟩ : CodeSuggestion)] ≠ [⟨"g", "X"⟩]) :=
  ⟨by decide, by decide⟩

/-- Claim C8 witness: a two-block comment, the second block's path trimming
to empty (so it is dropped by the truthiness filter). -/
theorem parse_interleaved_blocks_witness :
    parseSuggestionsFromComment (renderComment "hi "
      [⟨"a.ts", "a.ts", "- 1\n+ 2\n", "\nmid\n"⟩, ⟨" ", "x", "body\n", ""⟩])
      = [(⟨"a.ts", "a.ts", "- 1\n+ 2\n", "\nmid\n"⟩ : DiffBlockSeg),
         ⟨" ", "x", "body\n", ""⟩].filterMap
          (fun x => if jsTrimList x.path.data ≠ [] ∧ jsTrimList x.body.data ≠ []
            then some ⟨⟨jsTrimList x.path.data⟩, ⟨jsTrimList x.body.data⟩⟩ else none) :=
  parse_interleaved_blocks _ _ (by decide) (by decide)

/-- Claim C4 (amended): for a comment with one diff-tagged block with header
lines `--- a/<p>` / `+++ b/<p>` and a non-empty backtick-free body, inside
filler free of diff-fence tags, extraction yields exactly one edit with
`filePath` the trimmed `<p>` and `diff` equal to the body under a full
JavaScript `trim` — which also removes leading/trailing whitespace of the
first and last body lines, not only outer blank lines as the original claim
states (see the counterexample). -/
theorem parse_single_diff_block (pre p b post : String)
    (hpre : ¬ HasFenceDiff pre.data) (hpost : ¬ HasFenceDiff post.data)
    (hp : p.data ≠ []) (hpl : ∀ c ∈ p.data, lineTerm c = false)
    (hb : b.data ≠ []) (hbt : ∀ c ∈ b.data, c ≠ btk)
    (hfp : jsTrimList p.data ≠ []) (hd : jsTrimList b.data ≠ []) :
    parseSuggestionsFromComment
      (pre ++ "\x60\x60\x60diff\n--- a/" ++ p ++ "\n+++ b/" ++ p ++ "\n" ++ b ++
        "\x60\x60\x60" ++ post)
      = [⟨⟨jsTrimList p.data⟩, ⟨jsTrimList b.data⟩⟩] := by
  unfold parseSuggestionsFromComment
  have hdata : (pre ++ "\x60\x60\x60diff\n--- a/" ++ p ++ "\n+++ b/" ++ p ++ "\n" ++ b ++
      "\x60\x60\x60" ++ post).data
      = pre.data ++ segList [(p.data, p.data, b.data, post.data)] := by
    simp only [strDataAppend, openerStr, hdr2Str, nlStr, fenceStr, segList]
    simp [List.append_assoc, opener, hdr2, fence3, btk]
  rw [hdata]
  rw [scan_segs _ pre.data hpre ?hconds]
  case hconds =>
    intro y hy
    rw [List.mem_singleton] at hy
    subst hy
    refine ⟨isEmpty_false_of_ne hp, ?_, isEmpty_false_of_ne hp, ?_,
      isEmpty_false_of_ne hb, hbt, hpost⟩
    · intro c hc
      simp [notLT, hpl c hc]
    · intro c hc
      simp [notLT, hpl c hc]
  simp [hfp, hd]

/-- Claim C4 counterexample: for the single-block comment whose body is
`"  x\n"`, the source's full trim produces diff `"x"`, not the claimed
blank-line-only trim `"  x"` (intra-line leading whitespace of the first body
line is removed). -/
theorem parse_single_block_trim_counterexample :
    parseSuggestionsFromComment "\x60\x60\x60diff\n--- a/f\n+++ b/f\n  x\n\x60\x60\x60"
      = [⟨"f", "x"⟩]
    ∧ trimOuterBlankLines "  x\n" = "  x"
    ∧ ([(⟨"f", "x"⟩ : CodeSuggestion)] ≠ [⟨"f", trimOuterBlankLines "  x\n"⟩]) :=
  ⟨by decide, by decide, by decide⟩

/-- Claim C4 witness: a concrete one-block comment with filler on each side. -/
theorem parse_single_diff_block_witness :
    parseSuggestionsFromComment
      ("Intro " ++ "\x60\x60\x60diff\n--- a/" ++ "src/a.ts" ++ "\n+++ b/" ++ "src/a.ts" ++
        "\n" ++ "- x\n+ y\n" ++ "\x60\x60\x60" ++ " done")
      = [⟨⟨jsTrimList "src/a.ts".data⟩, ⟨jsTrimList "- x\n+ y\n".data⟩⟩] :=
  parse_single_diff_block "Intro " "src/a.ts" "- x\n+ y\n" " done"
    (by decide) (by decide) (by decide) (by decide) (by decide) (by decide)
    (by decide) (by decide)

/-- Claim C10: every edit the extractor returns has a non-empty `filePath`
and a non-empty `diff`; in particular an edit whose extracted path trims to
the empty string is discarded rather than emitted. -/
theorem parse_edit_fields_truthy (comment : String) (e : CodeSuggestion)
    (he : e ∈ parseSuggestionsFromComment comment) :
    e.filePath ≠ "" ∧ e.diff ≠ "" := by
  unfold parseSuggestionsFromComment at he
  rw [List.mem_filterMap] at he
  obtain ⟨g, hg, hge⟩ := he
  by_cases hc : jsTrimList g.1 ≠ [] ∧ jsTrimList g.2 ≠ []
  · rw [if_pos hc] at hge
    obtain rfl : (⟨⟨jsTrimList g.1⟩, ⟨jsTrimList g.2⟩⟩ : CodeSuggestion) = e := by
      simpa using hge
    exact ⟨fun h => hc.1 (congrArg String.data h), fun h => hc.2 (congrArg String.data h)⟩
  · rw [if_neg hc] at hge
    exact absurd hge (by simp)

/-- Claim C10 witness: the single edit of a concrete comment has truthy
fields. -/
theorem parse_edit_fields_truthy_witness :
    (CodeSuggestion.mk "f" "X").filePath ≠ "" ∧ (CodeSuggestion.mk "f" "X").diff ≠ "" :=
  parse_edit_fields_truthy "\x60\x60\x60diff\n--- a/f\n+++ b/f\nX\n\x60\x60\x60"
    ⟨"f", "X"⟩ (by decide)

/-- A character with a hex value lies in the three digit ranges and its
value is below 16. -/
theorem hexVal_range {c : Char} {v : Nat} (h : hexVal c = some v) :
    v < 16 ∧ ((48 ≤ c.toNat ∧ c.toNat ≤ 57) ∨ (97 ≤ c.toNat ∧ c.toNat ≤ 102) ∨
      (65 ≤ c.toNat ∧ c.toNat ≤ 70)) := by
  unfold hexVal at h
  split at h
  · next hc =>
    obtain rfl : c.toNat - 48 = v := by simpa using h
    exact ⟨by omega, .inl hc⟩
  · split at h
    · next hc =>
      obtain rfl : c.toNat - 87 = v := by simpa using h
      exact ⟨by omega, .inr (.inl hc)⟩
    · split at h
      · next hc =>
        obtain rfl : c.toNat - 55 = v := by simpa using h
        exact ⟨by omega, .inr (.inr hc)⟩
      · exact absurd h (by simp)

/-- Hex digits are not JavaScript whitespace. -/
theorem hexVal_not_ws {c : Char} {v : Nat} (h : hexVal c = some v) :
    jsWhitespace c = false := by
  have := (hexVal_range h).2
  simp [jsWhitespace]
  omega

/-- Hex digits are not line terminators. -/
theorem hexVal_notLT {c : Char} {v : Nat} (h : hexVal c = some v) : notLT c = true := by
  have := (hexVal_range h).2
  simp [notLT, lineTerm]
  omega

/-- Hex digits are none of the characters `parseInt` treats specially. -/
theorem hexVal_not_special {c : Char} {v : Nat} (h : hexVal c = some v) :
    c ≠ '-' ∧ c ≠ '+' ∧ c ≠ 'x' ∧ c ≠ 'X' ∧ c ≠ '=' := by
  have hr := (hexVal_range h).2
  refine ⟨fun hc => ?_, fun hc => ?_, fun hc => ?_, fun hc => ?_, fun hc => ?_⟩ <;>
    (subst hc; revert hr; decide)

/-- JavaScript `parseInt(h, 16)` on a two-hex-digit chunk is its hex value. -/
theorem jsParseIntHex_pair {c1 c2 : Char} {v1 v2 : Nat}
    (h1 : hexVal c1 = some v1) (h2 : hexVal c2 = some v2) :
    jsParseIntHex [c1, c2] = some ((16 * v1 + v2 : Nat) : Int) := by
  have hw1 := hexVal_not_ws h1
  have hd : [c1, c2].dropWhile jsWhitespace = [c1, c2] := by
    simp [List.dropWhile_cons, hw1]
  unfold jsParseIntHex
  rw [hd]
  rw [if_neg (by simp [(hexVal_not_special h1).1]), if_neg (by simp [(hexVal_not_special h1).2.1])]
  have htag : stripHexTag [c1, c2] = [c1, c2] := by
    show (if c1 = '0' ∧ (c2 = 'x' ∨ c2 = 'X') then ([] : List Char) else [c1, c2]) = [c1, c2]
    rw [if_neg]
    rintro ⟨rfl, hc2⟩
    cases hc2 with
    | inl hx => exact absurd hx (hexVal_not_special h2).2.2.1
    | inr hX => exact absurd hX (hexVal_not_special h2).2.2.2.1
  rw [htag]
  have htw : [c1, c2].takeWhile (fun c => (hexVal c).isSome) = [c1, c2] := by
    simp [List.takeWhile_cons, h1, h2]
  unfold takeHexVal
  rw [htw]
  simp [h1, h2, Nat.mul_comm]

/-- Decoding the `match(/../g)` chunks of an even-length all-hex string gives
its strict hex bytes. -/
theorem decodePairs_hex (n : Nat) : ∀ h : List Char, h.length ≤ n →
    (∀ c ∈ h, (hexVal c).isSome) → h.length % 2 = 0 →
    hexPairs h ≠ [] ∨ h = [] →
    decodePairs (hexPairs h) = strictHexBytes h := by
  induction n with
  | zero =>
    intro h hh _ _
    have : h = [] := List.length_eq_zero.mp (by omega)
    subst this
    intro
    rfl
  | succ n ih =>
    intro h hh hhex heven _
    match h with
    | [] => rfl
    | [c] =>
      exfalso
      have h3 : ([c] : List Char).length % 2 = 0 := heven
      rw [show ([c] : List Char).length = 1 from rfl] at h3
      omega
    | c1 :: c2 :: t =>
      obtain ⟨v1, hv1⟩ := Option.isSome_iff_exists.mp (hhex c1 (by simp))
      obtain ⟨v2, hv2⟩ := Option.isSome_iff_exists.mp (hhex c2 (by simp))
      rw [hexPairs, if_pos (by rw [hexVal_notLT hv1, hexVal_notLT hv2]; rfl)]
      rw [show decodePairs ([c1, c2] :: hexPairs t)
        = toByte (jsParseIntHex [c1, c2]) :: decodePairs (hexPairs t) from rfl]
      rw [jsParseIntHex_pair hv1 hv2]
      have ht : decodePairs (hexPairs t) = strictHexBytes t := by
        refine ih t (by simp at hh; omega) (fun c hc => hhex c (by simp [hc])) ?_ ?_
        · simp at heven ⊢
          omega
        · match t with
          | [] => exact .inr rfl
          | [c] =>
            exfalso
            have h3 : ([c1, c2, c] : List Char).length % 2 = 0 := heven
            rw [show ([c1, c2, c] : List Char).length = 3 from rfl] at h3
            omega
          | d1 :: d2 :: u =>
            left
            obtain ⟨w1, hw1⟩ := Option.isSome_iff_exists.mp (hhex d1 (by simp))
            obtain ⟨w2, hw2⟩ := Option.isSome_iff_exists.mp (hhex d2 (by simp))
            rw [hexPairs, if_pos (by rw [hexVal_notLT hw1, hexVal_notLT hw2]; rfl)]
            simp
      rw [ht, strictHexBytes, hv1, hv2]
      have hlt1 := (hexVal_range hv1).1
      have hlt2 := (hexVal_range hv2).1
      have : toByte (some ((16 * v1 + v2 : Nat) : Int)) = 16 * v1 + v2 := by
        simp [toByte]
        omega
      rw [this]
      rfl

/-- Splitting on an absent separator returns the whole list. -/
theorem splitOnChar_not_mem {sep : Char} {l : List Char} (h : sep ∉ l) :
    splitOnChar sep l = [l] := by
  induction l with
  | nil => rfl
  | cons c cs ih =>
    rw [splitOnChar, if_neg (fun hc => h (by simp [hc]))]
    rw [ih (fun hm => h (by simp [hm]))]

/-- Splitting at the first separator occurrence. -/
theorem splitOnChar_first {sep : Char} {pre rest : List Char} (h : sep ∉ pre) :
    splitOnChar sep (pre ++ sep :: rest) = pre :: splitOnChar sep rest := by
  induction pre with
  | nil => simp [splitOnChar]
  | cons c cs ih =>
    rw [List.cons_append, splitOnChar, if_neg (fun hc => h (by simp [hc]))]
    rw [ih (fun hm => h (by simp [hm]))]

/-- Reduction of `verifySignature` when `split('=')[1]` is defined. -/
theorem verifySignature_some {hmac : String → String → List Nat} {secret payload : String}
    {sig : String} {h : List Char} (hs : sigHexPart sig = some h) :
    verifySignature hmac secret sig payload
      = if hexPairs h = [] then .error ()
        else .ok (decodePairs (hexPairs h) == hmac secret payload) := by
  unfold verifySignature
  rw [hs]

/-- Reduction of `verifySignature` when `split('=')[1]` is `undefined`. -/
theorem verifySignature_none {hmac : String → String → List Nat} {secret payload : String}
    {sig : String} (hs : sigHexPart sig = none) :
    verifySignature hmac secret sig payload = .error () := by
  unfold verifySignature
  rw [hs]

/-- A non-empty even-length all-hex string chunks into at least one pair. -/
theorem hexPairs_ne_nil {h : List Char} (hne : h ≠ []) (heven : h.length % 2 = 0)
    (hhex : ∀ c ∈ h, (hexVal c).isSome) : hexPairs h ≠ [] := by
  match h with
  | [] => exact absurd rfl hne
  | [c] =>
    exfalso
    have h3 : ([c] : List Char).length % 2 = 0 := heven
    rw [show ([c] : List Char).length = 1 from rfl] at h3
    omega
  | c1 :: c2 :: t =>
    obtain ⟨v1, hv1⟩ := Option.isSome_iff_exists.mp (hhex c1 (by simp))
    obtain ⟨v2, hv2⟩ := Option.isSome_iff_exists.mp (hhex c2 (by simp))
    rw [hexPairs, if_pos (by rw [hexVal_notLT hv1, hexVal_notLT hv2]; rfl)]
    simp

/-- Splitting always yields at least one piece. -/
theorem splitOnChar_cons_shape (sep : Char) : ∀ l : List Char,
    ∃ hd tl, splitOnChar sep l = hd :: tl := by
  intro l
  induction l with
  | nil => exact ⟨[], [], rfl⟩
  | cons c cs ih =>
    by_cases hc : c = sep
    · exact ⟨[], splitOnChar sep cs, by rw [splitOnChar, if_pos hc]⟩
    · obtain ⟨hd, tl, h⟩ := ih
      exact ⟨c :: hd, tl, by rw [splitOnChar, if_neg hc, h]⟩

/-- Splitting on a present separator yields at least two pieces, so index 1
is defined. -/
theorem splitOnChar_mem_some {sep : Char} : ∀ {l : List Char}, sep ∈ l →
    ∃ h, (splitOnChar sep l)[1]? = some h := by
  intro l hmem
  induction l with
  | nil => simp at hmem
  | cons c cs ih =>
    by_cases hc : c = sep
    · obtain ⟨hd, tl, hX⟩ := splitOnChar_cons_shape sep cs
      refine ⟨hd, ?_⟩
      rw [splitOnChar, if_pos hc, hX]
      simp
    · have hmem2 : sep ∈ cs := by
        cases hmem with
        | head => exact absurd rfl hc
        | tail _ h => exact h
      obtain ⟨h, hh⟩ := ih hmem2
      obtain ⟨hd, tl, hX⟩ := splitOnChar_cons_shape sep cs
      rw [hX] at hh
      refine ⟨h, ?_⟩
      rw [splitOnChar, if_neg hc, hX]
      simpa using hh

/-- JavaScript `split('=')[1]` is `undefined` exactly when the signature
contains no `=` at all. -/
theorem sigHexPart_none_iff (sig : String) : sigHexPart sig = none ↔ '=' ∉ sig.data := by
  constructor
  · intro h hmem
    obtain ⟨x, hx⟩ := splitOnChar_mem_some hmem
    unfold sigHexPart at h
    rw [hx] at h
    exact Option.noConfusion h
  · intro hmem
    unfold sigHexPart
    rw [splitOnChar_not_mem hmem]
    rfl

/-- Fuelled form: `match(/../g)` returns `null` exactly when the string has
no two adjacent non-line-terminator characters. -/
theorem hexPairs_nil_aux (n : Nat) : ∀ l : List Char, l.length ≤ n →
    (hexPairs l = [] ↔
      ¬∃ (u : List Char) (c d : Char) (v : List Char), l = u ++ c :: d :: v ∧ notLT c = true ∧ notLT d = true) := by
  induction n with
  | zero =>
    intro l hl
    have hnil : l = [] := List.length_eq_zero.mp (by omega)
    subst hnil
    constructor
    · intro _
      rintro ⟨u, c, d, v, hl2, _, _⟩
      have := congrArg List.length hl2
      simp at this
      omega
    · intro _
      rfl
  | succ n ih =>
    intro l hl
    match l with
    | [] =>
      constructor
      · intro _
        rintro ⟨u, c, d, v, hl2, _, _⟩
        have := congrArg List.length hl2
        simp at this
        omega
      · intro _
        rfl
    | [c0] =>
      constructor
      · intro _
        rintro ⟨u, c, d, v, hl2, _, _⟩
        have := congrArg List.length hl2
        simp at this
        omega
      · intro _
        rfl
    | c1 :: c2 :: rest =>
      by_cases hcc : notLT c1 = true ∧ notLT c2 = true
      · have hstep : hexPairs (c1 :: c2 :: rest) = [c1, c2] :: hexPairs rest := by
          rw [hexPairs, if_pos (by rw [hcc.1, hcc.2]; rfl)]
        rw [hstep]
        exact iff_of_false (by simp)
          (not_not_intro ⟨[], c1, c2, rest, rfl, hcc.1, hcc.2⟩)
      · have hstep : hexPairs (c1 :: c2 :: rest) = hexPairs (c2 :: rest) := by
          rw [hexPairs, if_neg (by rw [Bool.and_eq_true]; exact hcc)]
        have hlen : (c2 :: rest).length ≤ n := by
          have h2 : (c1 :: c2 :: rest).length ≤ n + 1 := hl
          simp at h2 ⊢
          omega
        rw [hstep, ih (c2 :: rest) hlen]
        apply not_congr
        constructor
        · rintro ⟨u, c, d, v, hl2, hc, hd⟩
          exact ⟨c1 :: u, c, d, v, by rw [List.cons_append, hl2], hc, hd⟩
        · rintro ⟨u, c, d, v, hl2, hc, hd⟩
          cases u with
          | nil =>
            simp at hl2
            obtain ⟨rfl, rfl, _⟩ := hl2
            exact absurd ⟨hc, hd⟩ hcc
          | cons a u2 =>
            simp at hl2
            obtain ⟨rfl, hl3⟩ := hl2
            exact ⟨u2, c, d, v, hl3, hc, hd⟩

/-- JavaScript `match(/../g)` on the digest part returns `null` exactly when
it has no two adjacent non-line-terminator characters. -/
theorem hexPairs_eq_nil_iff (l : List Char) :
    hexPairs l = []
      ↔ ¬∃ (u : List Char) (c d : Char) (v : List Char), l = u ++ c :: d :: v ∧ notLT c = true ∧ notLT d = true :=
  hexPairs_nil_aux l.length l (le_refl _)

/-- Claim C3 (amended): `verifySignature` faults (rather than returning
`false`) exactly when the signature has no `=` at all, or the part between
its first and second `=` contains no two adjacent non-line-terminator
characters (so `match(/../g)` is `null` — e.g. the digest part is empty or a
single character).  Every other signature returns without faulting: the
result is `ok` of the comparison of the leniently decoded digest bytes with
the HMAC tag.  In particular, when the digest part is well-formed
(non-empty, even-length, all hex digits) the result is `ok` of exactly the
strict-hex-decoding comparison — for any prefix before the `=`: the
algorithm tag is never checked.  And whenever the chunked digest's byte
count differs from the tag length, the result is `ok false` without
faulting (covering odd-length and most malformed digests). -/
theorem verify_signature_characterization (hmac : String → String → List Nat)
    (secret payload : String) :
    (∀ sig : String,
      verifySignature hmac secret sig payload = .error ()
        ↔ ('=' ∉ sig.data
            ∨ ∃ h, sigHexPart sig = some h
                ∧ ¬∃ (u : List Char) (c d : Char) (v : List Char), h = u ++ c :: d :: v
                    ∧ notLT c = true ∧ notLT d = true))
    ∧ (∀ (sig : String) (h : List Char), sigHexPart sig = some h → hexPairs h ≠ [] →
        verifySignature hmac secret sig payload
          = .ok (decodePairs (hexPairs h) == hmac secret payload))
    ∧ (∀ pre h : List Char, '=' ∉ pre → h ≠ [] → h.length % 2 = 0 →
        (∀ c ∈ h, (hexVal c).isSome) →
        verifySignature hmac secret ⟨pre ++ '=' :: h⟩ payload
          = .ok (strictHexBytes h == hmac secret payload))
    ∧ (∀ (sig : String) (h : List Char), sigHexPart sig = some h → hexPairs h ≠ [] →
        (hexPairs h).length ≠ (hmac secret payload).length →
        verifySignature hmac secret sig payload = .ok false) := by
  refine ⟨?_, ?_, ?_, ?_⟩
  · intro sig
    constructor
    · intro herr
      cases hs : sigHexPart sig with
      | none =>
        exact .inl ((sigHexPart_none_iff sig).mp hs)
      | some h =>
        refine .inr ⟨h, rfl, (hexPairs_eq_nil_iff h).mp ?_⟩
        by_contra hpp
        rw [verifySignature_some hs, if_neg hpp] at herr
        exact Except.noConfusion herr
    · intro hd
      cases hd with
      | inl hne =>
        exact verifySignature_none ((sigHexPart_none_iff sig).mpr hne)
      | inr hex =>
        obtain ⟨h, hs, hno⟩ := hex
        rw [verifySignature_some hs, if_pos ((hexPairs_eq_nil_iff h).mpr hno)]
  · intro sig h hs hpp
    rw [verifySignature_some hs, if_neg hpp]
  · intro pre h hpre hne heven hhex
    have hnoh : '=' ∉ h := by
      intro hm
      have := hhex '=' hm
      rw [show hexVal '=' = none from by decide] at this
      exact absurd this (by simp)
    have hs : sigHexPart ⟨pre ++ '=' :: h⟩ = some h := by
      unfold sigHexPart
      show (splitOnChar '=' (pre ++ '=' :: h))[1]? = some h
      rw [splitOnChar_first hpre, splitOnChar_not_mem hnoh]
      rfl
    rw [verifySignature_some hs, if_neg (hexPairs_ne_nil hne heven hhex)]
    rw [decodePairs_hex h.length h (le_refl _) hhex heven
      (.inl (hexPairs_ne_nil hne heven hhex))]
  · intro sig h hs hpp hlen
    rw [verifySignature_some hs, if_neg hpp]
    have hne : decodePairs (hexPairs h) ≠ hmac secret payload := by
      intro he
      apply hlen
      rw [← he]
      simp [decodePairs]
    rw [beq_eq_false_iff_ne.mpr hne]

/-- Claim C3 counterexample: the malformed signature `"0123abcd"` (no `=`
separator) makes `verifySignature` fault — `split('=')[1]` is `undefined` and
`.match` throws — instead of returning `false` as the claim requires. -/
theorem verify_malformed_fault_counterexample :
    verifySignature (fun _ _ => List.replicate 32 0) "secret" "0123abcd" "payload"
      = .error ()
    ∧ verifySignature (fun _ _ => List.replicate 32 0) "secret" "0123abcd" "payload"
      ≠ .ok false := by
  constructor
  · rfl
  · intro h
    have e : verifySignature (fun _ _ => List.replicate 32 0) "secret" "0123abcd" "payload"
        = .error () := rfl
    rw [e] at h
    exact Except.noConfusion h

/-- Claim C3 witness: a well-formed signature verifies by digest-tag
comparison. -/
theorem verify_signature_characterization_witness :
    verifySignature (fun _ _ => [1, 2]) "sec" ⟨"sha256".data ++ '=' :: "0102".data⟩ "pay"
      = .ok (strictHexBytes "0102".data == [1, 2]) :=
  (verify_signature_characterization (fun _ _ => [1, 2]) "sec" "pay").2.2.1
    "sha256".data "0102".data (by decide) (by decide) (by decide) (by decide)

/-- Number of pull-request fetches in a trace. -/
def countFetch : List GitCall → Nat
  | [] => 0
  | GitCall.prFetch :: rest => countFetch rest + 1
  | _ :: rest => countFetch rest

/-- Number of suspensions in a trace. -/
def countSleep : List GitCall → Nat
  | [] => 0
  | GitCall.sleep _ :: rest => countSleep rest + 1
  | _ :: rest => countSleep rest

/-- Step `suggStep` on a file response reduces to the patch outcome. -/
theorem suggStep_file {w : GhWorld} {s : CodeSuggestion} {cs : List (String × String)}
    {orig : String} (h : w.getContent s.filePath = .file orig) :
    suggStep w s cs
      = match w.applyPatch orig (mkPatch s.filePath s.diff) with
        | none => none
        | some nc => some (setEntry cs s.filePath nc) := by
  rw [suggStep, h]

/-- Step `suggStep` on a non-file response keeps the change set. -/
theorem suggStep_nonFile {w : GhWorld} {s : CodeSuggestion} {cs : List (String × String)}
    (h : w.getContent s.filePath = .nonFile) : suggStep w s cs = some cs := by
  rw [suggStep, h]

/-- Step `suggStep` on a thrown fetch aborts. -/
theorem suggStep_error {w : GhWorld} {s : CodeSuggestion} {cs : List (String × String)}
    (h : w.getContent s.filePath = .error) : suggStep w s cs = none := by
  rw [suggStep, h]

/-- Loop step on an aborting suggestion. -/
theorem buildCS_cons_none {w : GhWorld} {s : CodeSuggestion} {ss : List CodeSuggestion}
    {cs : List (String × String)} (h : suggStep w s cs = none) :
    buildChangeSetAux w (s :: ss) cs = ([.getContent s.filePath], none) := by
  rw [buildChangeSetAux, h]

/-- Loop step on a surviving suggestion. -/
theorem buildCS_cons_some {w : GhWorld} {s : CodeSuggestion} {ss : List CodeSuggestion}
    {cs cs' : List (String × String)} (h : suggStep w s cs = some cs') :
    buildChangeSetAux w (s :: ss) cs
      = (.getContent s.filePath :: (buildChangeSetAux w ss cs').1,
         (buildChangeSetAux w ss cs').2) := by
  rw [buildChangeSetAux, h]

/-- The suggestion loop only performs content fetches. -/
theorem buildCS_calls (w : GhWorld) : ∀ (ss : List CodeSuggestion)
    (cs : List (String × String)), ∀ c ∈ (buildChangeSetAux w ss cs).1,
    ∃ p, c = GitCall.getContent p := by
  intro ss
  induction ss with
  | nil =>
    intro cs c hc
    simp [buildChangeSetAux] at hc
  | cons s rest ih =>
    intro cs c hc
    cases hst : suggStep w s cs with
    | none =>
      rw [buildCS_cons_none hst] at hc
      simp at hc
      exact ⟨s.filePath, hc⟩
    | some cs' =>
      rw [buildCS_cons_some hst] at hc
      simp at hc
      cases hc with
      | inl h => exact ⟨s.filePath, h⟩
      | inr h => exact ih cs' c h

/-- Appending more suggestions after a successful run continues from the
accumulated change set. -/
theorem buildCS_append_some (w : GhWorld) : ∀ (pre : List CodeSuggestion)
    (cs : List (String × String)) (t : List GitCall) (cs' : List (String × String)),
    buildChangeSetAux w pre cs = (t, some cs') → ∀ rest,
    buildChangeSetAux w (pre ++ rest) cs
      = (t ++ (buildChangeSetAux w rest cs').1, (buildChangeSetAux w rest cs').2) := by
  intro pre
  induction pre with
  | nil =>
    intro cs t cs' h rest
    have h1 : ([] : List GitCall) = t := congrArg Prod.fst h
    have h2 : (some cs : Option (List (String × String))) = some cs' := congrArg Prod.snd h
    obtain rfl := h1.symm
    obtain rfl : cs = cs' := by injection h2
    simp
  | cons s pre' ih =>
    intro cs t cs' h rest
    cases hst : suggStep w s cs with
    | none =>
      rw [buildCS_cons_none hst] at h
      exact absurd (congrArg Prod.snd h) (by simp)
    | some cs0 =>
      rw [buildCS_cons_some hst] at h
      have h1 : GitCall.getContent s.filePath :: (buildChangeSetAux w pre' cs0).1 = t :=
        congrArg Prod.fst h
      have h2 : (buildChangeSetAux w pre' cs0).2 = some cs' := congrArg Prod.snd h
      have e : buildChangeSetAux w pre' cs0
          = ((buildChangeSetAux w pre' cs0).1, some cs') := by
        rw [← h2]
      rw [List.cons_append, buildCS_cons_some hst, ih cs0 _ cs' e rest]
      rw [← h1]
      simp

/-- Reduction of `mergePullRequest` on a caught fetch error. -/
theorem mergePR_none {w : GhWorld} (h : exOk w.mergeFetch = none) :
    mergePullRequest w = (.errored, [.mergeGet]) := by
  unfold mergePullRequest
  rw [h]

/-- Reduction of `mergePullRequest` on a fetched snapshot. -/
theorem mergePR_some {w : GhWorld} {pr : PrSnapshot} (h : exOk w.mergeFetch = some pr) :
    mergePullRequest w =
      (if pr.merged then (.alreadyMerged, [.mergeGet])
       else if pr.mergeable ≠ some true then (.unmergeable, [.mergeGet])
       else match exOk w.mergeApi with
         | none => (.errored, [.mergeGet, .mergeCall])
         | some res =>
           if res.merged = false then (.mergeFailed, [.mergeGet, .mergeCall])
           else if pr.baseRef ≠ w.config.primary_branch.getD "main" then
             (.merged, [.mergeGet, .mergeCall,
               .integrate (w.config.primary_branch.getD "main") pr.baseRef])
           else (.merged, [.mergeGet, .mergeCall])) := by
  unfold mergePullRequest
  rw [h]

/-- The merge orchestrator never creates commit objects. -/
theorem mergePR_no_createCommit (w : GhWorld) (tree : String) (parents : List String) :
    GitCall.createCommit tree parents ∉ (mergePullRequest w).2 := by
  intro hc
  cases hE : exOk w.mergeFetch with
  | none =>
    rw [mergePR_none hE] at hc
    simp at hc
  | some pr =>
    rw [mergePR_some hE] at hc
    cases hA : exOk w.mergeApi with
    | none =>
      rw [hA] at hc
      repeat' split at hc
      all_goals simp at hc
    | some res =>
      rw [hA] at hc
      repeat' split at hc
      all_goals simp at hc

/-- The readiness poller never creates commit objects. -/
theorem waitAux_no_createCommit (fetch : Nat → Except Unit PrSnapshot)
    (expected : String) : ∀ (r a : Nat) (tree : String) (parents : List String),
    GitCall.createCommit tree parents ∉ (waitAux fetch expected a r).2 := by
  intro r
  induction r with
  | zero =>
    intro a tree parents hc
    simp [waitAux] at hc
  | succ r ih =>
    intro a tree parents hc
    rw [waitAux] at hc
    split at hc
    · simp at hc
    · split at hc
      · simp at hc
      · simp at hc
        exact ih (a + 1) tree parents hc

/-- Any commit object the commit block creates has the snapshot head SHA as
its sole parent. -/
theorem commitPhase_createCommit {w : GhWorld} {pr : PrInfo}
    {cs : List (String × String)} {tree : String} {parents : List String}
    (h : GitCall.createCommit tree parents ∈ commitPhase w pr cs) :
    parents = [pr.headSha] := by
  unfold commitPhase at h
  simp at h
  cases h1 : exOk (w.getCommitTree pr.headSha) with
  | none =>
    rw [h1] at h
    simp at h
  | some baseTree =>
    rw [h1] at h
    simp at h
    cases h2 : seqBlobs w cs with
    | none =>
      rw [h2] at h
      simp at h
    | some blobs =>
      rw [h2] at h
      simp at h
      cases h3 : exOk (w.createTree baseTree cs) with
      | none =>
        rw [h3] at h
        simp at h
      | some treeSha =>
        rw [h3] at h
        simp at h
        cases h4 : exOk (w.createCommit treeSha [pr.headSha]) with
        | none =>
          rw [h4] at h
          simp at h
          exact h.2
        | some commitSha =>
          rw [h4] at h
          simp at h
          rcases h with ⟨h5, h6⟩ | h
          · exact h6
          · cases h7 : exOk (w.updateRef ("heads/" ++ pr.headRef) commitSha) with
            | none =>
              rw [h7] at h
              simp at h
            | some u =>
              rw [h7] at h
              simp at h
              rcases h with h | h
              · exact absurd h (waitAux_no_createCommit w.waitFetch commitSha 12 1 tree parents)
              · exact absurd h (mergePR_no_createCommit w tree parents)

/-- Claim C1: if `applyPatch` fails for any edit of the batch — here, the
batch reaches edit `s` with every earlier edit processed successfully and the
patch for `s` does not apply — the whole run aborts: no change set results
and the only API calls of the run are content fetches; in particular no
blob, tree, commit or ref-update call happens, no matter how many earlier
edits had applied. -/
theorem patch_failure_all_or_nothing (w : GhWorld) (pr : PrInfo)
    (pre : List CodeSuggestion) (s : CodeSuggestion) (post : List CodeSuggestion)
    (t : List GitCall) (cs : List (String × String)) (orig : String)
    (hpre : buildChangeSetAux w pre [] = (t, some cs))
    (hfile : w.getContent s.filePath = ContentResult.file orig)
    (hpatch : w.applyPatch orig (mkPatch s.filePath s.diff) = none) :
    (buildChangeSetAux w (pre ++ s :: post) []).2 = none
    ∧ ∀ c ∈ applySuggestions w pr (pre ++ s :: post), ∃ p, c = GitCall.getContent p := by
  have hstep : suggStep w s cs = none := by
    rw [suggStep_file hfile, hpatch]
  have hall := buildCS_append_some w pre [] t cs hpre (s :: post)
  rw [buildCS_cons_none hstep] at hall
  constructor
  · rw [hall]
  · intro c hc
    unfold applySuggestions at hc
    rw [hall] at hc
    simp at hc
    rcases hc with h | h
    · exact buildCS_calls w pre [] c (by rw [hpre]; exact h)
    · exact ⟨s.filePath, h⟩

/-- A world for the claim C1 witness: the first file patches cleanly, the
second file's patch does not apply. -/
def c1World : GhWorld where
  getContent := fun p => if p = "a" then .file "one" else .file "two"
  applyPatch := fun orig _ => if orig = "one" then some "newA" else none
  getCommitTree := fun _ => .ok "t0"
  createBlob := fun _ => .ok "b0"
  createTree := fun _ _ => .ok "t1"
  createCommit := fun _ _ => .ok "c1"
  updateRef := fun _ _ => .ok ()
  waitFetch := fun _ => .ok ⟨"c1", some true, false, "main"⟩
  mergeFetch := .ok ⟨"c1", some true, false, "main"⟩
  mergeApi := .ok ⟨true⟩
  config := { automatic_pr_processing := true }

/-- Claim C1 witness: a batch whose first edit applied and whose second edit
fails to patch produces no change set and only content fetches. -/
theorem patch_failure_all_or_nothing_witness :
    (buildChangeSetAux c1World ([⟨"a", "d1"⟩] ++ (⟨"b", "d2"⟩ : CodeSuggestion) :: []) []).2
      = none
    ∧ ∀ c ∈ applySuggestions c1World ⟨1, "br", "h0"⟩
        ([⟨"a", "d1"⟩] ++ (⟨"b", "d2"⟩ : CodeSuggestion) :: []),
        ∃ p, c = GitCall.getContent p :=
  patch_failure_all_or_nothing c1World ⟨1, "br", "h0"⟩ [⟨"a", "d1"⟩] ⟨"b", "d2"⟩ []
    [GitCall.getContent "a"] [("a", "newA")] "two" (by decide) (by decide) (by decide)

/-- A world for the claim C2 counterexample: path `a` resolves to a
non-file, every other path is a file whose patch applies; all git-write
calls succeed. -/
def c2World : GhWorld where
  getContent := fun p => if p = "a" then .nonFile else .file "orig"
  applyPatch := fun _ _ => some "new"
  getCommitTree := fun _ => .ok "tree0"
  createBlob := fun _ => .ok "blob0"
  createTree := fun _ _ => .ok "tree1"
  createCommit := fun _ _ => .ok "commit1"
  updateRef := fun _ _ => .ok ()
  waitFetch := fun _ => .ok ⟨"commit1", some true, false, "main"⟩
  mergeFetch := .ok ⟨"commit1", some true, false, "main"⟩
  mergeApi := .ok ⟨true⟩
  config := { automatic_pr_processing := true }

/-- Claim C2 counterexample: in a batch whose first edit's path resolves to a
non-file, the batch is *not* aborted — the second edit still goes through and
a commit is created from it (the `createCommit` call is in the run's trace),
contradicting "no commit is created from that batch". -/
theorem content_nonfile_commits_counterexample :
    c2World.getContent "a" = ContentResult.nonFile
    ∧ GitCall.createCommit "tree1" ["head0"] ∈
        applySuggestions c2World ⟨1, "feat", "head0"⟩ [⟨"a", "d1"⟩, ⟨"b", "d2"⟩] :=
  ⟨rfl, by decide⟩

/-- Claim C2 (amended): a *thrown* content fetch aborts the entire batch — no
change set results and the run performs only content fetches — but a
*non-file* content response (the path resolving to a directory, submodule or
symlink) only skips that one edit: the change set is exactly that of the
remaining edits. -/
theorem content_fetch_behavior (w : GhWorld) (pr : PrInfo) :
    (∀ (pre : List CodeSuggestion) (s : CodeSuggestion) (post : List CodeSuggestion)
      (t : List GitCall) (cs : List (String × String)),
      buildChangeSetAux w pre [] = (t, some cs) →
      w.getContent s.filePath = ContentResult.error →
      (buildChangeSetAux w (pre ++ s :: post) []).2 = none
      ∧ ∀ c ∈ applySuggestions w pr (pre ++ s :: post), ∃ p, c = GitCall.getContent p)
    ∧ (∀ (s : CodeSuggestion) (rest : List CodeSuggestion)
        (cs : List (String × String)),
      w.getContent s.filePath = ContentResult.nonFile →
      (buildChangeSetAux w (s :: rest) cs).2 = (buildChangeSetAux w rest cs).2) := by
  constructor
  · intro pre s post t cs hpre herr
    have hstep : suggStep w s cs = none := suggStep_error herr
    have hall := buildCS_append_some w pre [] t cs hpre (s :: post)
    rw [buildCS_cons_none hstep] at hall
    constructor
    · rw [hall]
    · intro c hc
      unfold applySuggestions at hc
      rw [hall] at hc
      simp at hc
      rcases hc with h | h
      · exact buildCS_calls w pre [] c (by rw [hpre]; exact h)
      · exact ⟨s.filePath, h⟩
  · intro s rest cs hnf
    rw [buildCS_cons_some (suggStep_nonFile hnf)]

/-- A world for the claim C2 witness: every content fetch throws. -/
def c2wWorld : GhWorld where
  getContent := fun _ => .error
  applyPatch := fun _ _ => some "new"
  getCommitTree := fun _ => .ok "t0"
  createBlob := fun _ => .ok "b0"
  createTree := fun _ _ => .ok "t1"
  createCommit := fun _ _ => .ok "c1"
  updateRef := fun _ _ => .ok ()
  waitFetch := fun _ => .ok ⟨"c1", some true, false, "main"⟩
  mergeFetch := .ok ⟨"c1", some true, false, "main"⟩
  mergeApi := .ok ⟨true⟩
  config := { automatic_pr_processing := true }

/-- Claim C2 witness: a batch whose single edit's content fetch throws yields
no change set and performs only content fetches. -/
theorem content_fetch_behavior_witness :
    (buildChangeSetAux c2wWorld ([] ++ (⟨"x", "d"⟩ : CodeSuggestion) :: []) []).2 = none
    ∧ ∀ c ∈ applySuggestions c2wWorld ⟨2, "br", "h9"⟩
        ([] ++ (⟨"x", "d"⟩ : CodeSuggestion) :: []),
        ∃ p, c = GitCall.getContent p :=
  (content_fetch_behavior c2wWorld ⟨2, "br", "h9"⟩).1 [] ⟨"x", "d"⟩ [] [] [] rfl rfl

/-- Claim C5: a commit object is created only when the change set of the run
is non-empty, and every `createCommit` call of a run carries exactly one
parent — the head SHA of the pull-request snapshot taken at the start of
suggestion processing.  The world `w` is unconstrained: the branch may have
moved (every later fetch may report any other head), yet the commit still
targets the snapshot parent. -/
theorem commit_parent_and_nonempty (w : GhWorld) (pr : PrInfo)
    (suggestions : List CodeSuggestion) (tree : String) (parents : List String)
    (hmem : GitCall.createCommit tree parents ∈ applySuggestions w pr suggestions) :
    parents = [pr.headSha]
    ∧ ∃ cs, (buildChangeSetAux w suggestions []).2 = some cs ∧ cs ≠ [] := by
  unfold applySuggestions at hmem
  rw [List.mem_append] at hmem
  rcases hmem with h | h
  · obtain ⟨p, hp⟩ := buildCS_calls w suggestions [] _ h
    exact absurd hp (by simp)
  · split at h
    · simp at h
    · next cs heq =>
      split at h
      · simp at h
      · next hemp =>
        refine ⟨commitPhase_createCommit h, cs, heq, ?_⟩
        intro hnil
        rw [hnil] at hemp
        exact hemp rfl

/-- A world for the claim C5 witness: one file edit, all calls succeed, and
the polling and merge fetches report a branch head different from the
snapshot head — the created commit still has the stale snapshot parent. -/
def c5World : GhWorld where
  getContent := fun _ => .file "one"
  applyPatch := fun _ _ => some "new"
  getCommitTree := fun _ => .ok "t0"
  createBlob := fun _ => .ok "b0"
  createTree := fun _ _ => .ok "t1"
  createCommit := fun _ _ => .ok "c1"
  updateRef := fun _ _ => .ok ()
  waitFetch := fun _ => .ok ⟨"movedHead", some true, false, "main"⟩
  mergeFetch := .ok ⟨"movedHead", some true, false, "main"⟩
  mergeApi := .ok ⟨true⟩
  config := { automatic_pr_processing := true }

/-- Claim C5 witness: the concrete run creates a commit whose only parent is
the snapshot head `h0`, and its change set is non-empty. -/
theorem commit_parent_and_nonempty_witness :
    ["h0"] = [(PrInfo.mk 1 "br" "h0").headSha]
    ∧ ∃ cs, (buildChangeSetAux c5World [⟨"f", "d"⟩] []).2 = some cs ∧ cs ≠ [] :=
  commit_parent_and_nonempty c5World ⟨1, "br", "h0"⟩ [⟨"f", "d"⟩] "t1" ["h0"] (by decide)

/-- Every call of the readiness poller is a fetch or a 5000 ms suspension. -/
theorem waitAux_calls (fetch : Nat → Except Unit PrSnapshot) (expected : String) :
    ∀ (r a : Nat), ∀ c ∈ (waitAux fetch expected a r).2,
    c = GitCall.prFetch ∨ c = GitCall.sleep 5000 := by
  intro r
  induction r with
  | zero =>
    intro a c hc
    simp [waitAux] at hc
  | succ r ih =>
    intro a c hc
    rw [waitAux] at hc
    split at hc
    · simp at hc
      exact .inl hc
    · split at hc
      · simp at hc
        exact .inl hc
      · simp at hc
        rcases hc with h | h | h
        · exact .inl h
        · exact .inr h
        · exact ih (a + 1) c h

/-- Full characterisation of `waitAux` from attempt `a` with `r` attempts
remaining: an early return happens exactly at the first ready attempt, with
one fetch per attempt used and one suspension between consecutive attempts;
exhaustion means no attempt in the window was ready, after `r` fetches and
`r - 1` suspensions. -/
theorem waitAux_spec (fetch : Nat → Except Unit PrSnapshot) (expected : String) :
    ∀ (r a : Nat), 1 ≤ r →
    ((∀ k, (waitAux fetch expected a r).1 = WaitOutcome.ready k →
      a ≤ k ∧ k ≤ a + r - 1 ∧ prIsReady expected (fetch k) = true ∧
      (∀ j, a ≤ j → j < k → prIsReady expected (fetch j) = false) ∧
      countFetch (waitAux fetch expected a r).2 = k - a + 1 ∧
      countSleep (waitAux fetch expected a r).2 = k - a)
    ∧ ((waitAux fetch expected a r).1 = WaitOutcome.exhausted →
      (∀ j, a ≤ j → j ≤ a + r - 1 → prIsReady expected (fetch j) = false) ∧
      countFetch (waitAux fetch expected a r).2 = r ∧
      countSleep (waitAux fetch expected a r).2 = r - 1)) := by
  intro r
  induction r with
  | zero =>
    intro a h
    omega
  | succ r ih =>
    intro a _
    cases hready : prIsReady expected (fetch a) with
    | true =>
      have e : waitAux fetch expected a (r + 1) = (.ready a, [.prFetch]) := by
        rw [waitAux, if_pos hready]
      rw [e]
      constructor
      · intro k hk
        obtain rfl : a = k := by simpa using hk
        refine ⟨le_refl _, by omega, hready, ?_, ?_, ?_⟩
        · intro j hj1 hj2
          omega
        · simp [countFetch]
        · simp [countSleep]
      · intro hk
        simp at hk
    | false =>
      by_cases hr : r = 0
      · subst hr
        have e : waitAux fetch expected a 1 = (.exhausted, [.prFetch]) := by
          rw [waitAux, if_neg (by simp [hready]), if_pos rfl]
        rw [e]
        constructor
        · intro k hk
          simp at hk
        · intro _
          refine ⟨?_, by simp [countFetch], by simp [countSleep]⟩
          intro j hj1 hj2
          obtain rfl : j = a := by omega
          exact hready
      · have hr1 : 1 ≤ r := by omega
        have e : waitAux fetch expected a (r + 1)
            = ((waitAux fetch expected (a + 1) r).1,
               .prFetch :: .sleep 5000 :: (waitAux fetch expected (a + 1) r).2) := by
          rw [waitAux, if_neg (by simp [hready]), if_neg hr]
        rw [e]
        obtain ⟨ihr, ihe⟩ := ih (a + 1) hr1
        constructor
        · intro k hk
          obtain ⟨hk1, hk2, hk3, hk4, hk5, hk6⟩ := ihr k hk
          refine ⟨by omega, by omega, hk3, ?_, ?_, ?_⟩
          · intro j hj1 hj2
            by_cases hja : j = a
            · rw [hja]
              exact hready
            · exact hk4 j (by omega) hj2
          · simp [countFetch, hk5]
            omega
          · simp [countSleep, hk6]
            omega
        · intro hk
          obtain ⟨he1, he2, he3⟩ := ihe hk
          refine ⟨?_, ?_, ?_⟩
          · intro j hj1 hj2
            by_cases hja : j = a
            · rw [hja]
              exact hready
            · exact he1 j (by omega) (by omega)
          · simp [countFetch, he2]
          · simp [countSleep, he3]
            omega

/-- Claim C6: the readiness poller always returns after at most 12 fetches
(it is a total function of the per-attempt fetch results, so caught fetch
errors cannot make it throw), every call it makes is a fetch or a 5000 ms
suspension between unready attempts, it returns early exactly at the first
attempt whose fetched state has the expected head SHA and a non-null
mergeability field, and when all 12 attempts are unready it still returns
(the `exhausted` outcome, after which the caller proceeds to the merge
step — `commitPhase` appends the merge trace unconditionally). -/
theorem wait_poll_bounded (fetch : Nat → Except Unit PrSnapshot) (expected : String) :
    countFetch (waitForPullRequestReady fetch expected).2 ≤ 12
    ∧ (∀ c ∈ (waitForPullRequestReady fetch expected).2,
        c = GitCall.prFetch ∨ c = GitCall.sleep 5000)
    ∧ (∀ k, (waitForPullRequestReady fetch expected).1 = WaitOutcome.ready k →
        1 ≤ k ∧ k ≤ 12 ∧ prIsReady expected (fetch k) = true ∧
        (∀ j, 1 ≤ j → j < k → prIsReady expected (fetch j) = false) ∧
        countFetch (waitForPullRequestReady fetch expected).2 = k ∧
        countSleep (waitForPullRequestReady fetch expected).2 = k - 1)
    ∧ ((waitForPullRequestReady fetch expected).1 = WaitOutcome.exhausted →
        (∀ j, 1 ≤ j → j ≤ 12 → prIsReady expected (fetch j) = false) ∧
        countFetch (waitForPullRequestReady fetch expected).2 = 12 ∧
        countSleep (waitForPullRequestReady fetch expected).2 = 11) := by
  unfold waitForPullRequestReady
  obtain ⟨hr, he⟩ := waitAux_spec fetch expected 12 1 (by omega)
  refine ⟨?_, waitAux_calls fetch expected 12 1, ?_, ?_⟩
  · cases ho : (waitAux fetch expected 1 12).1 with
    | ready k =>
      obtain ⟨h1, h2, _, _, h5, _⟩ := hr k ho
      omega
    | exhausted =>
      obtain ⟨_, h2, _⟩ := he ho
      omega
  · intro k hk
    obtain ⟨h1, h2, h3, h4, h5, h6⟩ := hr k hk
    exact ⟨h1, by omega, h3, h4, by omega, by omega⟩
  · intro hk
    obtain ⟨h1, h2, h3⟩ := he hk
    exact ⟨fun j hj1 hj2 => h1 j hj1 (by omega), h2, h3⟩

/-- The fetch schedule for the claim C6 witness: the first two attempts
throw, from the third on the pull request reports the expected head and a
computed (false) mergeability. -/
def c6Fetch : Nat → Except Unit PrSnapshot := fun n =>
  if n < 3 then .error () else .ok ⟨"sha", some false, false, "main"⟩

/-- Claim C6 witness: with `c6Fetch` the poller returns early at attempt 3
after 3 fetches and 2 suspensions. -/
theorem wait_poll_bounded_witness :
    1 ≤ 3 ∧ 3 ≤ 12 ∧ prIsReady "sha" (c6Fetch 3) = true
    ∧ (∀ j, 1 ≤ j → j < 3 → prIsReady "sha" (c6Fetch j) = false)
    ∧ countFetch (waitForPullRequestReady c6Fetch "sha").2 = 3
    ∧ countSleep (waitForPullRequestReady c6Fetch "sha").2 = 3 - 1 :=
  (wait_poll_bounded c6Fetch "sha").2.2.1 3 (by decide)

/-- Claim C7: on a pull request whose fresh fetch reports it already merged,
`mergePullRequest` returns the already-merged outcome having performed only
that fetch — no squash-merge call and no branch-integration call — so two
invocations (over any two worlds whose fetches both report merged) produce
the same outcome with no duplicate side effects. -/
theorem merge_idempotent_on_merged (w w' : GhWorld) (pr pr' : PrSnapshot)
    (hw : w.mergeFetch = Except.ok pr) (hm : pr.merged = true)
    (hw' : w'.mergeFetch = Except.ok pr') (hm' : pr'.merged = true) :
    mergePullRequest w = (MergeOutcome.alreadyMerged, [GitCall.mergeGet])
    ∧ mergePullRequest w' = (MergeOutcome.alreadyMerged, [GitCall.mergeGet])
    ∧ (mergePullRequest w).1 = (mergePullRequest w').1
    ∧ GitCall.mergeCall ∉ (mergePullRequest w).2
    ∧ ∀ b h2, GitCall.integrate b h2 ∉ (mergePullRequest w).2 := by
  have hex : exOk w.mergeFetch = some pr := by rw [hw]; rfl
  have hex' : exOk w'.mergeFetch = some pr' := by rw [hw']; rfl
  have e : mergePullRequest w = (.alreadyMerged, [.mergeGet]) := by
    rw [mergePR_some hex, if_pos hm]
  have e' : mergePullRequest w' = (.alreadyMerged, [.mergeGet]) := by
    rw [mergePR_some hex', if_pos hm']
  refine ⟨e, e', by rw [e, e'], ?_, ?_⟩
  · rw [e]
    simp
  · intro b h2
    rw [e]
    simp

/-- A world for the claim C7 witness: the merge fetch reports an
already-merged pull request. -/
def c7World : GhWorld where
  getContent := fun _ => .error
  applyPatch := fun _ _ => none
  getCommitTree := fun _ => .error ()
  createBlob := fun _ => .error ()
  createTree := fun _ _ => .error ()
  createCommit := fun _ _ => .error ()
  updateRef := fun _ _ => .error ()
  waitFetch := fun _ => .error ()
  mergeFetch := .ok ⟨"h", some true, true, "dev"⟩
  mergeApi := .ok ⟨true⟩
  config := { automatic_pr_processing := false }

/-- Claim C7 witness: two invocations on the merged pull request both return
the already-merged outcome with only the fetch in their traces. -/
theorem merge_idempotent_on_merged_witness :
    mergePullRequest c7World = (MergeOutcome.alreadyMerged, [GitCall.mergeGet])
    ∧ mergePullRequest c7World = (MergeOutcome.alreadyMerged, [GitCall.mergeGet])
    ∧ (mergePullRequest c7World).1 = (mergePullRequest c7World).1
    ∧ GitCall.mergeCall ∉ (mergePullRequest c7World).2
    ∧ ∀ b h2, GitCall.integrate b h2 ∉ (mergePullRequest c7World).2 :=
  merge_idempotent_on_merged c7World c7World ⟨"h", some true, true, "dev"⟩
    ⟨"h", some true, true, "dev"⟩ rfl rfl rfl rfl

/-- Claim C9: the reconciliation step attempts to create the policy file —
always at the fixed path, always with the baseline content
`automatic_pr_processing = false` and no other overrides — exactly when the
read of the policy file failed with status 404; a successful read or any
other failure (other statuses, or none) creates nothing. -/
theorem ensure_config_creates_iff_404 (readConfig : Except GhError Unit) :
    (EnsureCall.createFile configPath defaultConfig ∈ ensureConfigFile readConfig
      ↔ ∃ e, readConfig = Except.error e ∧ e.status = some 404)
    ∧ (∀ p cfg, EnsureCall.createFile p cfg ∈ ensureConfigFile readConfig →
        p = configPath ∧ cfg = defaultConfig ∧ cfg.automatic_pr_processing = false ∧
        cfg.ai_model = none ∧ cfg.custom_prompts = none ∧ cfg.ignored_files = none ∧
        cfg.bot_username = none ∧ cfg.primary_branch = none) := by
  cases readConfig with
  | ok u =>
    constructor
    · simp [ensureConfigFile]
    · intro p cfg hmem
      simp [ensureConfigFile] at hmem
  | error e =>
    by_cases h404 : e.status = some 404
    · have eq1 : ensureConfigFile (Except.error e)
          = if e.status ≠ some 404 then [EnsureCall.getContent configPath]
            else [EnsureCall.getContent configPath,
              EnsureCall.createFile configPath defaultConfig] := rfl
      have et : ensureConfigFile (.error e)
          = [.getContent configPath, .createFile configPath defaultConfig] := by
        rw [eq1, if_neg (by simp [h404])]
      constructor
      · constructor
        · intro _
          exact ⟨e, rfl, h404⟩
        · intro _
          rw [et]
          simp
      · intro p cfg hmem
        rw [et] at hmem
        simp at hmem
        obtain ⟨rfl, rfl⟩ := hmem
        exact ⟨rfl, rfl, rfl, rfl, rfl, rfl, rfl, rfl⟩
    · have eq1 : ensureConfigFile (Except.error e)
          = if e.status ≠ some 404 then [EnsureCall.getContent configPath]
            else [EnsureCall.getContent configPath,
              EnsureCall.createFile configPath defaultConfig] := rfl
      have et : ensureConfigFile (.error e) = [.getContent configPath] := by
        rw [eq1, if_pos h404]
      constructor
      · constructor
        · intro hmem
          rw [et] at hmem
          simp at hmem
        · rintro ⟨e', he', hs⟩
          obtain rfl : e = e' := by injection he'
          exact absurd hs h404
      · intro p cfg hmem
        rw [et] at hmem
        simp at hmem

/-- Claim C9 witness: a 404 read leads to the baseline creation call. -/
theorem ensure_config_creates_iff_404_witness :
    EnsureCall.createFile configPath defaultConfig
      ∈ ensureConfigFile (Except.error ⟨some 404⟩) :=
  (ensure_config_creates_iff_404 (Except.error ⟨some 404⟩)).1.mpr ⟨⟨some 404⟩, rfl, rfl⟩
